import Mathlib

/-!
Verification of the deduplication engine in `tools/deduplicate.py`.

The engine is embedded shallowly:

* A normalized input record (a Python dict produced by `tools/normalize.py`)
  becomes the structure `Record`.  String-valued fields are Lean `String`s,
  with the empty string standing for Python's falsy values (`""`/`None`);
  the numeric `bed_count` field is modelled by its decimal string, `""`
  standing for `None`/`0` (both falsy in Python).  The internal matching
  fields `_norm_name`/`_norm_address` may be absent from a dict, so they are
  `Option String` here.
* The engine consumes two external capabilities: the string-normalization
  cores of `normalize_address`/`normalize_name` (regex pipelines in
  `tools/normalize.py`, declared out of scope by the specification) and the
  `rapidfuzz` similarity scorer (an optional third-party import).  Both
  enter the embedding through the `Env` structure; `Env.has_rapidfuzz`
  models the `HAS_RAPIDFUZZ` flag.  The early-return guards
  `if not address: return ""` / `if not name: return ""` of the
  normalization functions are part of the repository's code and are embedded
  directly, so concrete theorems below only ever normalize the empty string
  and are therefore independent of the environment's normalization core.
* Confidences and similarity ratios are exact rationals (`ℚ`); the Python
  floats 1.0, 0.95, 0.9, 0.75, 0.5, 0.85, 0.8 are all exactly representable
  in binary floating point or only ever compared against scorer outputs,
  which the embedding keeps abstract, so nothing in the claims hinges on
  rounding.
* Python `dict` iteration order is insertion order; the three indexes built
  by `deduplicate` are embedded as association lists in first-seen key
  order (`buildIndex` below).
-/

/-- One entry of the `sources` provenance list of a merged lead. -/
structure SourceEntry where
  source : String
  source_id : String
  confidence : ℚ
deriving DecidableEq, Repr

/-- A normalized input record, as produced by `tools/normalize.py`.  Fields
not consulted by the deduplication engine (`address_line2`, `state`,
`facility_type`, `facility_established_date`) are omitted. -/
structure Record where
  source : String
  source_id : String
  facility_name : String
  address_line1 : String
  city : String
  zip5 : String
  county : String
  phone : String
  fax : String
  administrator : String
  npi_number : String
  license_number : String
  taxonomy_code : String
  bed_count : String
  hospital_type : String
  ownership_type : String
  entity_type : String
  norm_name : Option String
  norm_address : Option String
deriving DecidableEq, Repr

/-- A record together with its input position and current match confidence:
the dict `{"idx": i, "record": rec, "confidence": c}` of `deduplicate`. -/
structure Entry where
  idx : Nat
  record : Record
  confidence : ℚ
deriving DecidableEq, Repr

/-- A merged lead: the merged record fields plus the `sources` list. -/
structure Lead where
  record : Record
  sources : List SourceEntry
deriving DecidableEq, Repr

/-- A review flag emitted by Pass 5 of `deduplicate`. -/
structure ReviewFlag where
  record : Record
  reason : String
  confidence : ℚ
deriving DecidableEq, Repr

/-- The external capabilities consumed by the engine: the similarity scorer
(`rapidfuzz`, modelled by `has_rapidfuzz` and `fuzz_ratio`, the latter being
`fuzz.ratio`, valued in [0,100]) and the regex cores of
`normalize_address` / `normalize_name` (the behavior of those functions on a
non-empty argument). -/
structure Env where
  has_rapidfuzz : Bool
  fuzz_ratio : String → String → ℚ
  normAddressCore : String → String
  normNameCore : String → String

/-- `normalize_address` from `tools/normalize.py`: the empty-string guard is
embedded, the regex pipeline on non-empty input is the environment's
`normAddressCore`. -/
def normalize_address (env : Env) (address : String) : String :=
  if address = "" then "" else env.normAddressCore address

/-- `normalize_name` from `tools/normalize.py`: the empty-string guard is
embedded, the regex pipeline on non-empty input is the environment's
`normNameCore`. -/
def normalize_name (env : Env) (name : String) : String :=
  if name = "" then "" else env.normNameCore name

/-- Python's `str.upper()`, character by character (the record fields in
this domain are ASCII, where `Char.toUpper` and Python agree). -/
def pyUpper (s : String) : String :=
  ⟨s.data.map Char.toUpper⟩

/-- Python's `str.strip()`: whitespace removed from both ends. -/
def pyStrip (s : String) : String :=
  ⟨((s.data.dropWhile Char.isWhitespace).reverse.dropWhile
      Char.isWhitespace).reverse⟩

/-- `make_address_key`: `normalize(address_line1) | upper(city) | zip5[:5]`,
`None` when all three components are empty (the joined key equals `"||"`). -/
def make_address_key (env : Env) (r : Record) : Option String :=
  let key := normalize_address env r.address_line1 ++ "|" ++
      pyStrip (pyUpper r.city) ++ "|" ++ pyStrip (r.zip5.take 5)
  if key = "||" then none else some key

/-- The `source_priority` dict of `merge_records`:
`{"adph": 0, "npi": 1, "cms": 2}` with default 9. -/
def source_priority (s : String) : Nat :=
  if s = "adph" then 0 else if s = "npi" then 1 else if s = "cms" then 2 else 9

/-- The two-component sort key of `merge_records`: organizations (`NPI-2`)
first, then by source priority. -/
def entryKey (e : Entry) : Nat × Nat :=
  ((if e.record.entity_type = "NPI-2" then 0 else 1), source_priority e.record.source)

/-- Strict lexicographic order on sort keys. -/
def keyLt (a b : Nat × Nat) : Prop :=
  a.1 < b.1 ∨ (a.1 = b.1 ∧ a.2 < b.2)

instance (a b : Nat × Nat) : Decidable (keyLt a b) := by
  unfold keyLt; infer_instance

/-- Stable insertion into a list sorted by `key`: the new element goes
before the first element whose key is not strictly smaller, reproducing the
stable sort used by Python's `sorted`. -/
def insertByKey (key : Entry → Nat × Nat) (e : Entry) : List Entry → List Entry
  | [] => [e]
  | x :: xs => if keyLt (key x) (key e) then x :: insertByKey key e xs else e :: x :: xs

/-- Stable sort by `key` (insertion sort), modelling Python's stable
`sorted(group, key=...)`. -/
def sortByKey (key : Entry → Nat × Nat) (g : List Entry) : List Entry :=
  g.foldr (insertByKey key) []

/-- The `{source, source_id, confidence}` sources entry built from a group
member. -/
def entryOf (e : Entry) : SourceEntry :=
  ⟨e.record.source, e.record.source_id, e.confidence⟩

/-- The fill-only-if-empty update of `merge_records`:
`if not merged.get(field) and rec.get(field): merged[field] = rec[field]`. -/
def fillStr (cur new : String) : String :=
  if cur = "" ∧ new ≠ "" then new else cur

/-- One iteration of the member loop of `merge_records` acting on the merged
record: fill the ten fillable fields, then apply the ADPH administrator,
ADPH facility-name and CMS bed-count overrides, in source order. -/
def mergeStep (m : Record) (r : Record) : Record :=
  let f : Record :=
    { m with
      phone := fillStr m.phone r.phone
      fax := fillStr m.fax r.fax
      county := fillStr m.county r.county
      administrator := fillStr m.administrator r.administrator
      npi_number := fillStr m.npi_number r.npi_number
      license_number := fillStr m.license_number r.license_number
      taxonomy_code := fillStr m.taxonomy_code r.taxonomy_code
      bed_count := fillStr m.bed_count r.bed_count
      hospital_type := fillStr m.hospital_type r.hospital_type
      ownership_type := fillStr m.ownership_type r.ownership_type }
  let f2 : Record :=
    if r.source = "adph" ∧ r.administrator ≠ "" then
      { f with administrator := r.administrator } else f
  let f3 : Record :=
    if r.source = "adph" ∧ r.facility_name ≠ "" then
      { f2 with facility_name := r.facility_name } else f2
  if r.source = "cms" ∧ r.bed_count ≠ "" then
    { f3 with bed_count := r.bed_count } else f3

/-- `merge_records`: a singleton group yields the record verbatim with a
one-entry sources list; a larger group is stably sorted, seeded from the
first sorted member, and folded with `mergeStep`.  The source indexes
`sorted_group[0]` and would raise on an empty group; `deduplicate` never
builds one (`dedupGroups_ne_nil` below), and the empty case here returns a
vacuous lead. -/
def merge_records (group : List Entry) : Lead :=
  match group with
  | [g] => ⟨g.record, [entryOf g]⟩
  | _ =>
    let sg := sortByKey entryKey group
    match sg with
    | [] => ⟨⟨"", "", "", "", "", "", "", "", "", "", "", "", "", "", "", "", "",
             none, none⟩, []⟩
    | b :: _ => ⟨sg.foldl (fun m e => mergeStep m e.record) b.record, sg.map entryOf⟩

/-- Removal of the internal matching fields `_norm_name`/`_norm_address`
(`merged.pop`) before a merged lead is emitted. -/
def stripLead (l : Lead) : Lead :=
  ⟨{ l.record with norm_name := none, norm_address := none }, l.sources⟩

/-- Append an entry to the bucket of key `k` in an insertion-ordered
association list, creating the bucket at the end if the key is new: the
behavior of `defaultdict(list)` under insertion-ordered dict semantics. -/
def addToIndex (ix : List (String × List Entry)) (k : String) (e : Entry) :
    List (String × List Entry) :=
  match ix with
  | [] => [(k, [e])]
  | (k', es) :: rest =>
    if k' = k then (k', es ++ [e]) :: rest else (k', es) :: addToIndex rest k e

/-- Build an index over the entries in input order, skipping entries whose
key function returns `none`.  Models the three `defaultdict` indexes of
`deduplicate`. -/
def buildIndex (f : Entry → Option String) (es : List Entry) :
    List (String × List Entry) :=
  es.foldl (fun ix e => match f e with | some k => addToIndex ix k e | none => ix) []

/-- The key under which a record enters `npi_index`
(`if rec.get("npi_number")`): its NPI number, skipped when empty. -/
def npiKey (e : Entry) : Option String :=
  if e.record.npi_number = "" then none else some e.record.npi_number

/-- The key under which a record enters `license_index`
(`if rec.get("license_number")`): its license number, skipped when empty. -/
def licKey (e : Entry) : Option String :=
  if e.record.license_number = "" then none else some e.record.license_number

/-- The key under which a record enters `address_index`: its address key,
skipped when `None`. -/
def addrKey (env : Env) (e : Entry) : Option String :=
  make_address_key env e.record

/-- The entry list built at the top of `deduplicate`:
`{"idx": i, "record": rec, "confidence": 1.0}` for each input record. -/
def mkEntries (records : List Record) : List Entry :=
  records.enum.map (fun p => ⟨p.1, p.2, 1⟩)

/-- The mutable state threaded through the passes: the `assigned` set of
record indices (a list, queried only for membership) and the growing list
of match groups. -/
structure DState where
  assigned : List Nat
  groups : List (List Entry)
deriving Repr

/-- The inner loop of Pass 1 over one NPI bucket: append each
not-yet-assigned entry (at confidence 1.0) to the group and its index to
the assigned set. -/
def assignFold (conf : ℚ) (b : List Entry) (acc : List Entry × List Nat) :
    List Entry × List Nat :=
  b.foldl (fun p e =>
    if e.idx ∈ p.2 then p
    else (p.1 ++ [{ e with confidence := conf }], p.2 ++ [e.idx])) acc

/-- Pass 1, one NPI bucket: skip the empty key, collect unassigned members
into a new group at confidence 1.0, keep the state unchanged when the group
would be empty. -/
def pass1Bucket (st : DState) (kv : String × List Entry) : DState :=
  if kv.1 = "" then st
  else
    let p := assignFold 1 kv.2 ([], st.assigned)
    match p.1 with
    | [] => st
    | _ => ⟨p.2, st.groups ++ [p.1]⟩

/-- Pass 1: NPI number matching at confidence 1.0. -/
def pass1 (ix : List (String × List Entry)) (st : DState) : DState :=
  ix.foldl pass1Bucket st

/-- The linear scan `for g in groups: if any(ge["idx"] == e["idx"] ...)`
locating the first group containing an index. -/
def findGroupIdx (groups : List (List Entry)) (i : Nat) : Option Nat :=
  (groups.enum.find? (fun p => p.2.any (fun ge => ge.idx = i))).map (·.1)

/-- One iteration of the absorption scan of Pass 2: for an already-assigned
entry, locate its group and append every still-unassigned bucket sibling at
confidence 0.95. -/
def absorbStep (entries : List Entry) (st : DState) (e : Entry) : DState :=
  if e.idx ∈ st.assigned then
    match findGroupIdx st.groups e.idx with
    | some gi =>
      let news := (entries.filter (fun ue => ue.idx ∉ st.assigned)).map
        (fun ue => { ue with confidence := 0.95 })
      ⟨st.assigned ++ news.map (·.idx),
       st.groups.set gi (st.groups.getD gi [] ++ news)⟩
    | none => st
  else st

/-- Pass 2, one license bucket: if every member is already assigned, run the
absorption scan; otherwise create a new group from the unassigned members at
confidence 0.95. -/
def pass2Bucket (st : DState) (kv : String × List Entry) : DState :=
  if kv.1 = "" then st
  else
    let unassigned := kv.2.filter (fun e => e.idx ∉ st.assigned)
    if unassigned = [] then kv.2.foldl (absorbStep kv.2) st
    else
      let grp := unassigned.map (fun e => { e with confidence := 0.95 })
      ⟨st.assigned ++ grp.map (·.idx), st.groups ++ [grp]⟩

/-- Pass 2: license number matching at confidence 0.95. -/
def pass2 (ix : List (String × List Entry)) (st : DState) : DState :=
  ix.foldl pass2Bucket st

/-- The normalized-name sub-grouping key of Pass 3:
`record.get("_norm_name", normalize_name(record.get("facility_name", "")))`. -/
def nameKey (env : Env) (e : Entry) : String :=
  e.record.norm_name.getD (normalize_name env e.record.facility_name)

/-- Pass 3, one address bucket: fewer than two unassigned members yield a
singleton group at confidence 0.9 (or nothing); otherwise the unassigned
members are sub-grouped by normalized name, each sub-group emitted at
confidence 0.9. -/
def pass3Bucket (env : Env) (st : DState) (kv : String × List Entry) : DState :=
  let unassigned := kv.2.filter (fun e => e.idx ∉ st.assigned)
  if unassigned.length < 2 then
    match unassigned with
    | [] => st
    | e :: _ =>
      ⟨st.assigned ++ [e.idx], st.groups ++ [[{ e with confidence := 0.9 }]]⟩
  else
    let nameIx := buildIndex (fun e => some (nameKey env e)) unassigned
    nameIx.foldl (fun st2 nkv =>
      let grp := nkv.2.map (fun e => { e with confidence := 0.9 })
      ⟨st2.assigned ++ grp.map (·.idx), st2.groups ++ [grp]⟩) st

/-- Pass 3: exact address + name matching at confidence 0.9. -/
def pass3 (env : Env) (ix : List (String × List Entry)) (st : DState) : DState :=
  ix.foldl (pass3Bucket env) st

/-- The fuzzy pair test of Pass 4:
`fuzz.ratio(name1, name2)/100 > 0.85 and fuzz.ratio(addr1, addr2)/100 > 0.8`,
on the `_norm_name`/`_norm_address` fields (default `""`). -/
def simOK (env : Env) (e1 e2 : Entry) : Bool :=
  let n1 := e1.record.norm_name.getD ""
  let a1 := e1.record.norm_address.getD ""
  let n2 := e2.record.norm_name.getD ""
  let a2 := e2.record.norm_address.getD ""
  decide (env.fuzz_ratio n1 n2 / 100 > (0.85 : ℚ) ∧
          env.fuzz_ratio a1 a2 / 100 > (0.8 : ℚ))

/-- Greedy single-pass clustering of one zip bucket (fueled so that it
computes by kernel reduction; the fuel, initially the list length, never
runs out because each step strictly shrinks the list): the head starts a
group with every later entry it matches (marked used), the rest are
clustered recursively. -/
def clusterAux (env : Env) : Nat → List Entry → List (List Entry)
  | 0, _ => []
  | _ + 1, [] => []
  | fuel + 1, e1 :: rest =>
    let matched := (rest.filter (simOK env e1)).map
      (fun e => { e with confidence := 0.75 })
    let rest' := rest.filter (fun e => ¬ simOK env e1 e)
    (e1 :: matched) :: clusterAux env fuel rest'

/-- Greedy clustering of one zip bucket of Pass 4. -/
def cluster (env : Env) (l : List Entry) : List (List Entry) :=
  clusterAux env l.length l

/-- The index lists of a list of groups. -/
def groupIdxs (gs : List (List Entry)) : List Nat :=
  (gs.map (fun g => g.map (·.idx))).flatten

/-- The `remaining` list rebuilt at the top of Pass 4: every input record
whose index is unassigned, at confidence 0.75. -/
def remainingOf (records : List Record) (st : DState) : List Entry :=
  (records.enum.filter (fun p => p.1 ∉ st.assigned)).map
    (fun p => ⟨p.1, p.2, 0.75⟩)

/-- Pass 4: if nothing remains, do nothing; with the scorer available,
cluster each zip bucket greedily and append every resulting group (also
singletons), assigning all members; without the scorer, append every
remaining record as its own singleton group. -/
def pass4 (env : Env) (records : List Record) (st : DState) : DState :=
  let remaining := remainingOf records st
  if remaining = [] then st
  else if env.has_rapidfuzz then
    let zipIx := buildIndex (fun e => some (e.record.zip5.take 5)) remaining
    zipIx.foldl (fun st2 kv =>
      let gs := cluster env kv.2
      ⟨st2.assigned ++ groupIdxs gs, st2.groups ++ gs⟩) st
  else
    ⟨st.assigned ++ remaining.map (·.idx), st.groups ++ remaining.map (fun e => [e])⟩

/-- Pass 5: every still-unassigned record becomes a singleton group at
confidence 0.5 and a review flag with reason `"Unmatched record"`; the
assigned set is not updated (faithful to the source). -/
def pass5 (records : List Record) (st : DState) : DState × List ReviewFlag :=
  records.enum.foldl (fun p q =>
    if q.1 ∈ p.1.assigned then p
    else (⟨p.1.assigned, p.1.groups ++ [[⟨q.1, q.2, 0.5⟩]]⟩,
          p.2 ++ [⟨q.2, "Unmatched record", 0.5⟩])) (st, [])

/-- The state after Pass 3 of `deduplicate` on the given input. -/
def afterPass3 (env : Env) (records : List Record) : DState :=
  let es := mkEntries records
  pass3 env (buildIndex (addrKey env) es)
    (pass2 (buildIndex licKey es) (pass1 (buildIndex npiKey es) ⟨[], []⟩))

/-- The `remaining` list Pass 4 computes: the records still unassigned after
Pass 3. -/
def remainingAfterPass3 (env : Env) (records : List Record) : List Entry :=
  remainingOf records (afterPass3 env records)

/-- The final grouping state and review flags of `deduplicate`
(Passes 1 through 5). -/
def dedupState (env : Env) (records : List Record) : DState × List ReviewFlag :=
  pass5 records (pass4 env records (afterPass3 env records))

/-- The final list of match groups produced by `deduplicate`. -/
def dedupGroups (env : Env) (records : List Record) : List (List Entry) :=
  (dedupState env records).1.groups

/-- The merged leads before the organization-over-individual filter:
each group merged and stripped of the internal matching fields. -/
def preFilterLeads (env : Env) (records : List Record) : List Lead :=
  (dedupGroups env records).map (fun g => stripLead (merge_records g))

/-- The `org_addresses` set: the truthy address keys of every merged lead
with entity type `NPI-2`, in lead order (queried only for membership). -/
def orgAddresses (env : Env) (leads : List Lead) : List String :=
  leads.foldl (fun acc l =>
    if l.record.entity_type = "NPI-2" then
      match make_address_key env l.record with
      | some k => if k = "" then acc else acc ++ [k]
      | none => acc
    else acc) []

/-- The membership test `make_address_key(lead) in org_addresses`
(`None` is never a member, the set holding only truthy string keys). -/
def leadKeyHit (env : Env) (orgs : List String) (l : Lead) : Bool :=
  match make_address_key env l.record with
  | some k => orgs.contains k
  | none => false

/-- The organization-over-individual post-filter: keep a lead when it is an
organization or its address key is not an organization address. -/
def entityFilter (env : Env) (leads : List Lead) : List Lead :=
  let orgs := orgAddresses env leads
  leads.filter (fun l => l.record.entity_type == "NPI-2" || !(leadKeyHit env orgs l))

/-- The `deduplicate` pipeline: five matching passes, group merging,
stripping, the organization-over-individual filter; returns the merged
leads and the review flags. -/
def deduplicate (env : Env) (records : List Record) :
    List Lead × List ReviewFlag :=
  let p := dedupState env records
  (entityFilter env (preFilterLeads env records), p.2)

/-- The spec's per-source priority order, from claim C7 / §4.3:
license-directory (adph) first, identifier-registry (npi) second,
cost-report-registry (cms) third, any others last. -/
def specSourceRank (s : String) : Nat :=
  if s = "adph" then 0 else if s = "npi" then 1 else if s = "cms" then 2 else 9

/-- The spec's two-key comparator key, from claim C7 / §4.3: organization
entity type sorts before others, then per-source priority. -/
def specKey (e : Entry) : Nat × Nat :=
  ((if e.record.entity_type = "NPI-2" then 0 else 1), specSourceRank e.record.source)

/-- The spec's fill-only-if-empty policy: keep a non-empty merged value,
otherwise take the member's value when non-empty. -/
def specFill (cur new : String) : String :=
  if cur ≠ "" then cur else if new ≠ "" then new else cur

/-- One member application of the spec's field-fill policy (claim C7 /
§4.3): each fillable field is filled only if empty, except that an adph
member with non-empty administrator or facility_name always overwrites
those fields and a cms member with non-empty bed_count always overwrites
bed_count. -/
def specStep (m r : Record) : Record :=
  { m with
    phone := specFill m.phone r.phone
    fax := specFill m.fax r.fax
    county := specFill m.county r.county
    administrator :=
      if r.source = "adph" ∧ r.administrator ≠ "" then r.administrator
      else specFill m.administrator r.administrator
    npi_number := specFill m.npi_number r.npi_number
    license_number := specFill m.license_number r.license_number
    taxonomy_code := specFill m.taxonomy_code r.taxonomy_code
    bed_count :=
      if r.source = "cms" ∧ r.bed_count ≠ "" then r.bed_count
      else specFill m.bed_count r.bed_count
    hospital_type := specFill m.hospital_type r.hospital_type
    ownership_type := specFill m.ownership_type r.ownership_type
    facility_name :=
      if r.source = "adph" ∧ r.facility_name ≠ "" then r.facility_name
      else m.facility_name }

/-- The group merge policy as worded by claim C7 (the spec's §4.3), for
comparison with `merge_records`: sort by the two-key comparator, seed the
merged lead from the first sorted member, apply the field-fill policy over
all members in sorted order, and collect one sources entry per member. -/
def mergeSpec (group : List Entry) : Lead :=
  let sg := sortByKey specKey group
  match sg with
  | [] => ⟨⟨"", "", "", "", "", "", "", "", "", "", "", "", "", "", "", "", "",
           none, none⟩, []⟩
  | b :: _ => ⟨sg.foldl (fun m e => specStep m e.record) b.record, sg.map entryOf⟩

/-- A neutral environment for concrete runs: scorer present, a zero ratio,
identity normalization cores.  Every concrete input below has an empty
`address_line1` and carries explicit `_norm_name`/`_norm_address` fields,
so neither core and (except where stated) no ratio is ever consulted and
the runs agree with the repository's actual normalizer and scorer. -/
def env0 : Env := ⟨true, fun _ _ => 0, id, id⟩

/-- A record with every engine-relevant field empty. -/
def emptyR : Record :=
  ⟨"", "", "", "", "", "", "", "", "", "", "", "", "", "", "", "", "", none, none⟩

/-- C1 counterexample input: an organization record (adph, `o1`). -/
def c1org : Record :=
  { emptyR with
    source := "adph"
    source_id := "o1"
    facility_name := "ORG"
    entity_type := "NPI-2"
    city := "BOAZ"
    zip5 := "35957"
    norm_name := some "ORG" }

/-- C1 counterexample input: an individual record (`npi-9`) at the same
address-block key as `c1org` but with a different normalized name. -/
def c1ind : Record :=
  { emptyR with
    source := "npi"
    source_id := "npi-9"
    facility_name := "IND"
    entity_type := "NPI-1"
    city := "BOAZ"
    zip5 := "35957"
    norm_name := some "IND" }

/-- C2 failing input: an NPI record carrying both an NPI number and license
number `AL-1234`, assigned by Pass 1. -/
def c2npi : Record :=
  { emptyR with
    source := "npi"
    source_id := "npi-1"
    npi_number := "1234567890"
    license_number := "AL-1234"
    entity_type := "NPI-1" }

/-- C2 failing input: an ADPH record with the same license number
`AL-1234` and no NPI number, still unassigned when Pass 2 runs. -/
def c2adph : Record :=
  { emptyR with
    source := "adph"
    source_id := "adph-AL-1234"
    license_number := "AL-1234"
    entity_type := "NPI-2" }

/-- C3 input: first clinic record, zip 35201, with explicit normalized
name and address. -/
def c3recA : Record :=
  { emptyR with
    source := "adph"
    source_id := "s1"
    facility_name := "ABC DENTAL CLINIC"
    zip5 := "35201"
    entity_type := "NPI-2"
    norm_name := some "ABC DENTAL CLINIC"
    norm_address := some "100 MAIN ST" }

/-- C3 input: second clinic record, same zip, slightly different
normalized name and address. -/
def c3recB : Record :=
  { emptyR with
    source := "npi"
    source_id := "s2"
    facility_name := "ABC DENTAL CLNC"
    zip5 := "35201"
    entity_type := "NPI-2"
    norm_name := some "ABC DENTAL CLNC"
    norm_address := some "100 MAIN STREET" }

/-- A scorer giving the C3 pair name similarity 0.90 and address
similarity 0.82 (ratios 90 and 82). -/
def ratioHi (a b : String) : ℚ :=
  if (a = "ABC DENTAL CLINIC" ∧ b = "ABC DENTAL CLNC") ∨
     (a = "ABC DENTAL CLNC" ∧ b = "ABC DENTAL CLINIC") then 90
  else if (a = "100 MAIN ST" ∧ b = "100 MAIN STREET") ∨
          (a = "100 MAIN STREET" ∧ b = "100 MAIN ST") then 82
  else 0

/-- A scorer giving the C3 pair name similarity 0.90 and address
similarity 0.79. -/
def ratioLo (a b : String) : ℚ :=
  if (a = "ABC DENTAL CLINIC" ∧ b = "ABC DENTAL CLNC") ∨
     (a = "ABC DENTAL CLNC" ∧ b = "ABC DENTAL CLINIC") then 90
  else if (a = "100 MAIN ST" ∧ b = "100 MAIN STREET") ∨
          (a = "100 MAIN STREET" ∧ b = "100 MAIN ST") then 79
  else 0

/-- Environment for C3's first scenario (similarities 0.90 / 0.82). -/
def envC3hi : Env := ⟨true, ratioHi, id, id⟩

/-- Environment for C3's second scenario (similarities 0.90 / 0.79). -/
def envC3lo : Env := ⟨true, ratioLo, id, id⟩

/-- An environment with the similarity scorer capability absent
(`HAS_RAPIDFUZZ = False`). -/
def envNoFuzz : Env := ⟨false, fun _ _ => 0, id, id⟩

/-- C4 input: a record with no identifiers and an all-empty address block,
reaching Pass 4. -/
def c4recA : Record :=
  { emptyR with
    source := "npi"
    source_id := "x1"
    facility_name := "X ONE"
    norm_name := some "X ONE"
    norm_address := some "1 A ST" }

/-- C4 input: a second record with no identifiers and an all-empty address
block. -/
def c4recB : Record :=
  { emptyR with
    source := "npi"
    source_id := "x2"
    facility_name := "X TWO"
    norm_name := some "X TWO"
    norm_address := some "2 B ST" }

/-- C5 counterexample input: first individual sharing NPI 1112223334. -/
def c5recA : Record :=
  { emptyR with
    source := "npi"
    source_id := "A"
    npi_number := "1112223334"
    entity_type := "NPI-1"
    city := "BOAZ"
    zip5 := "35957" }

/-- C5 counterexample input: second individual sharing NPI 1112223334. -/
def c5recB : Record :=
  { emptyR with
    source := "npi"
    source_id := "B"
    npi_number := "1112223334"
    entity_type := "NPI-1"
    city := "BOAZ"
    zip5 := "35957" }

/-- C5 counterexample input: an organization at the same address block. -/
def c5org : Record :=
  { emptyR with
    source := "npi"
    source_id := "C"
    npi_number := "9998887776"
    entity_type := "NPI-2"
    city := "BOAZ"
    zip5 := "35957" }

/-- C10 counterexample input: a record with an NPI number and all-empty
address components. -/
def c10rec : Record :=
  { emptyR with
    source := "npi"
    source_id := "n1"
    npi_number := "1234567890" }

/-- C7 witness group member: a cms organization record. -/
def c7entA : Entry :=
  ⟨0, { emptyR with
    source := "cms"
    source_id := "cms-7"
    facility_name := "GENERAL HOSPITAL"
    entity_type := "NPI-2"
    bed_count := "120" }, 1⟩

/-- C7 witness group member: an adph organization record with an
administrator. -/
def c7entB : Entry :=
  ⟨1, { emptyR with
    source := "adph"
    source_id := "adph-7"
    facility_name := "GENERAL HOSPITAL OF ALABAMA"
    entity_type := "NPI-2"
    administrator := "JANE ROE"
    phone := "2055550100" }, 0.95⟩

/-- C8 witness input: a single NPI record. -/
def c8rec : Record :=
  { emptyR with
    source := "npi"
    source_id := "npi-8"
    npi_number := "5556667778"
    entity_type := "NPI-1" }

/-- The invariant maintained by the matching passes: the indices collected
in the groups are a permutation of the assigned set, the assigned set has
no duplicates, and every assigned index is an input position. -/
def WFSt (n : Nat) (st : DState) : Prop :=
  (groupIdxs st.groups).Perm st.assigned ∧ st.assigned.Nodup ∧
    ∀ i ∈ st.assigned, i < n

/-- C1, counterexample.  The claim asserts that every input record's
source_id appears in the sources of exactly one merged lead returned by
`deduplicate`.  On the input `[c1org, c1ind]` the individual record
`npi-9` is grouped by Pass 3, but its merged lead is removed by the
organization-over-individual filter, so no returned lead contains it. -/
theorem C1_counterexample :
    c1ind.source_id = "npi-9" ∧
    ¬ ∃ l ∈ (deduplicate env0 [c1org, c1ind]).1,
        ∃ s ∈ l.sources, s.source_id = "npi-9" :=
  ⟨rfl, by decide⟩

/-- C2, evaluation at the failing input.  Two records share license
`AL-1234`; the first is assigned in Pass 1 via its NPI number, the second
is still unassigned when Pass 2 runs.  The claim (and the spec's absorption
rule) says the second is added to the first's group at confidence 0.95;
the code instead emits it as a separate singleton group, because the
absorption branch only runs when the bucket has no unassigned members. -/
theorem C2_license_absorption_failure :
    (deduplicate env0 [c2npi, c2adph]).1.map
        (fun l => l.sources.map (fun s => (s.source_id, s.confidence))) =
      [[("npi-1", 1)], [("adph-AL-1234", 0.95)]] ∧
    ¬ ∃ l ∈ (deduplicate env0 [c2npi, c2adph]).1,
        (∃ s ∈ l.sources, s.source_id = "npi-1") ∧
        (∃ s ∈ l.sources, s.source_id = "adph-AL-1234") :=
  ⟨rfl, by decide⟩

/-- C3, counterexample.  Two records with no identifiers share zip 35201;
the scorer gives their normalized names similarity 0.90 and their
normalized addresses similarity 0.82.  The claim says the pair ends up in
one merged lead at confidence 0.75; instead Pass 3 assigns each of them
(their shared address key is built from the zip alone) and no returned
lead contains both.  The claim also says that at address similarity 0.79
both records get a ReviewFlag; instead the review list is empty. -/
theorem C3_counterexample :
    (envC3hi.fuzz_ratio "ABC DENTAL CLINIC" "ABC DENTAL CLNC" = 90 ∧
     envC3hi.fuzz_ratio "100 MAIN ST" "100 MAIN STREET" = 82) ∧
    (¬ ∃ l ∈ (deduplicate envC3hi [c3recA, c3recB]).1,
        (∃ s ∈ l.sources, s.source_id = "s1") ∧
        (∃ s ∈ l.sources, s.source_id = "s2")) ∧
    (deduplicate envC3lo [c3recA, c3recB]).2 = [] :=
  ⟨⟨rfl, rfl⟩, by decide, rfl⟩

/-- C3, amended: two records with no identifier or license sharing a
non-empty 5-digit zip are assigned by Pass 3 (the zip alone makes their
address key non-None): with distinct normalized names they are emitted as
two singleton groups at confidence 0.9, with no review flags, and the
output is identical whether the pair's address similarity is 0.82 or 0.79
— the fuzzy thresholds are never consulted for such records. -/
theorem C3_fuzzy_threshold_amended :
    (deduplicate envC3hi [c3recA, c3recB]).1.map
        (fun l => l.sources.map (fun s => (s.source_id, s.confidence))) =
      [[("s1", 0.9)], [("s2", 0.9)]] ∧
    (deduplicate envC3hi [c3recA, c3recB]).2 = [] ∧
    deduplicate envC3lo [c3recA, c3recB] = deduplicate envC3hi [c3recA, c3recB] :=
  ⟨rfl, rfl, rfl⟩

/-- C4, counterexample.  With the scorer absent, two records reaching
Pass 4 are emitted as singleton groups, but their sources entries carry
confidence 0.75 (the `remaining` entries are built with that confidence
in both branches) and no review flag is created, contradicting the
claim's "no confidence boost ... and each such record is flagged for
review". -/
theorem C4_counterexample :
    envNoFuzz.has_rapidfuzz = false ∧
    (deduplicate envNoFuzz [c4recA, c4recB]).2 = [] ∧
    (deduplicate envNoFuzz [c4recA, c4recB]).1.map
        (fun l => l.sources.map (fun s => (s.source_id, s.confidence))) =
      [[("x1", 0.75)], [("x2", 0.75)]] :=
  ⟨rfl, rfl, rfl⟩

/-- C5, counterexample.  Records `A` and `B` share NPI 1112223334 and are
grouped by Pass 1, but their merged lead (an individual) sits at the same
address block as the organization lead `C`, so the entity filter removes
it: no returned merged lead contains record `A` at all, contradicting
"all of those records appear together in one and the same merged lead of
the output". -/
theorem C5_counterexample :
    c5recA.npi_number = "1112223334" ∧ c5recB.npi_number = "1112223334" ∧
    ¬ ∃ l ∈ (deduplicate env0 [c5recA, c5recB, c5org]).1,
        ∃ s ∈ l.sources, s.source_id = "A" :=
  ⟨rfl, rfl, by decide⟩

/-- C10, counterexample.  The claim says the records reaching Pass 4 are
exactly those whose normalized address, city and zip components are all
empty.  `c10rec` has all three components empty, yet it is assigned by
Pass 1 (it carries an NPI number) and never reaches Pass 4: the
characterization only holds in the forward direction. -/
theorem C10_counterexample :
    c10rec.address_line1 = "" ∧ c10rec.city = "" ∧ c10rec.zip5 = "" ∧
    remainingAfterPass3 env0 [c10rec] = [] :=
  ⟨rfl, rfl, rfl, rfl⟩

/-- A left fold preserves any property preserved by each step. -/
theorem foldl_pres {α β : Type _} (P : α → Prop) (f : α → β → α) :
    ∀ (l : List β) (a : α), P a → (∀ x ∈ l, ∀ s, P s → P (f s x)) →
      P (l.foldl f a) := by
  intro l
  induction l with
  | nil => intro a ha _; exact ha
  | cons x xs ih =>
    intro a ha hstep
    exact ih (f a x) (hstep x (by simp) a ha) (fun y hy => hstep y (by simp [hy]))

/-- Adding under a fresh key appends a new singleton bucket. -/
theorem addToIndex_not_mem (ix : List (String × List Entry)) (k : String)
    (e : Entry) (h : k ∉ ix.map Prod.fst) :
    addToIndex ix k e = ix ++ [(k, [e])] := by
  induction ix with
  | nil => rfl
  | cons p rest ih =>
    simp only [List.map_cons, List.mem_cons] at h
    push_neg at h
    simp only [addToIndex, if_neg (Ne.symm h.1)]
    rw [ih h.2]
    rfl

/-- Updating a list of buckets none of which has key `k` changes nothing. -/
theorem map_update_of_ne (k : String) (e : Entry) :
    ∀ (l : List (String × List Entry)), (∀ p ∈ l, p.1 ≠ k) →
      l.map (fun p => if p.1 = k then (p.1, p.2 ++ [e]) else p) = l := by
  intro l
  induction l with
  | nil => intro _; rfl
  | cons p rest ih =>
    intro h
    simp only [List.map_cons, if_neg (h p (by simp))]
    rw [ih (fun q hq => h q (by simp [hq]))]

/-- Adding under an existing key (keys being distinct) appends the entry to
that key's bucket and leaves every other bucket unchanged. -/
theorem addToIndex_mem (ix : List (String × List Entry)) (k : String) (e : Entry)
    (hnd : (ix.map Prod.fst).Nodup) (h : k ∈ ix.map Prod.fst) :
    addToIndex ix k e = ix.map (fun p => if p.1 = k then (p.1, p.2 ++ [e]) else p) := by
  induction ix with
  | nil => simp at h
  | cons p rest ih =>
    simp only [List.map_cons, List.nodup_cons] at hnd
    by_cases hpk : p.1 = k
    · simp only [addToIndex, if_pos hpk, List.map_cons, if_pos hpk]
      rw [map_update_of_ne k e rest
        (fun q hq => by
          intro hqk
          apply hnd.1
          rw [hpk, ← hqk]
          exact List.mem_map.mpr ⟨q, hq, rfl⟩)]
    · simp only [List.map_cons, List.mem_cons] at h
      rcases h with h | h
      · exact absurd h.symm hpk
      · simp only [addToIndex, if_neg (fun hh : p.1 = k => hpk hh), List.map_cons,
          if_neg hpk]
        rw [ih hnd.2 h]

/-- `buildIndex` characterization: keys are distinct, each bucket holds
exactly the entries of its key in input order, every key that occurs is
present, and no bucket is empty. -/
theorem buildIndex_spec (f : Entry → Option String) (es : List Entry) :
    ((buildIndex f es).map Prod.fst).Nodup ∧
    (∀ p ∈ buildIndex f es, p.2 = es.filter (fun e => decide (f e = some p.1))) ∧
    (∀ e ∈ es, ∀ k, f e = some k → k ∈ (buildIndex f es).map Prod.fst) ∧
    (∀ p ∈ buildIndex f es, p.2 ≠ []) := by
  induction es using List.reverseRecOn with
  | nil => simp [buildIndex]
  | append_singleton es e ih =>
    obtain ⟨ihnd, ihb, ihc, ihne⟩ := ih
    have hstep : buildIndex f (es ++ [e]) =
        (match f e with
         | some k => addToIndex (buildIndex f es) k e
         | none => buildIndex f es) := by
      rw [buildIndex, List.foldl_append]
      rfl
    cases hfe : f e with
    | none =>
      have hstep2 : buildIndex f (es ++ [e]) = buildIndex f es := by
        rw [hstep, hfe]
      rw [hstep2]
      refine ⟨ihnd, ?_, ?_, ihne⟩
      · intro p hp
        rw [List.filter_append, ihb p hp]
        simp [hfe]
      · intro e2 he2 k hk
        rcases List.mem_append.mp he2 with h | h
        · exact ihc e2 h k hk
        · simp only [List.mem_singleton] at h
          rw [h, hfe] at hk
          exact absurd hk (by simp)
    | some k =>
      have hstep2 : buildIndex f (es ++ [e]) = addToIndex (buildIndex f es) k e := by
        rw [hstep, hfe]
      by_cases hkin : k ∈ (buildIndex f es).map Prod.fst
      · rw [hstep2, addToIndex_mem _ _ _ ihnd hkin]
        have hkeys : (((buildIndex f es).map
            (fun p => if p.1 = k then (p.1, p.2 ++ [e]) else p)).map Prod.fst) =
            (buildIndex f es).map Prod.fst := by
          rw [List.map_map]
          exact List.map_congr_left (fun p _ => by
            by_cases h : p.1 = k <;> simp [h])
        refine ⟨hkeys ▸ ihnd, ?_, ?_, ?_⟩
        · intro p' hp'
          obtain ⟨p, hp, hup⟩ := List.mem_map.mp hp'
          by_cases h : p.1 = k
          · rw [if_pos h] at hup
            rw [← hup, List.filter_append, ← ihb p hp]
            simp [hfe, h]
          · rw [if_neg h] at hup
            rw [← hup, List.filter_append, ← ihb p hp]
            simp [hfe, Ne.symm h]
        · intro e2 he2 k2 hk2
          rw [hkeys]
          rcases List.mem_append.mp he2 with h | h
          · exact ihc e2 h k2 hk2
          · simp only [List.mem_singleton] at h
            rw [h, hfe] at hk2
            cases hk2
            exact hkin
        · intro p' hp'
          obtain ⟨p, hp, hup⟩ := List.mem_map.mp hp'
          by_cases h : p.1 = k
          · rw [if_pos h] at hup
            rw [← hup]
            simp
          · rw [if_neg h] at hup
            rw [← hup]
            exact ihne p hp
      · rw [hstep2, addToIndex_not_mem _ _ _ hkin]
        refine ⟨?_, ?_, ?_, ?_⟩
        · rw [List.map_append]
          simp only [List.map_cons, List.map_nil]
          rw [List.nodup_append]
          exact ⟨ihnd, List.nodup_singleton k,
            fun x hx => by simp only [List.mem_singleton]; intro hxk; exact hkin (hxk ▸ hx)⟩
        · intro p hp
          rcases List.mem_append.mp hp with h | h
          · rw [List.filter_append, ← ihb p h]
            have hpk : p.1 ≠ k := fun hh =>
              hkin (hh ▸ List.mem_map.mpr ⟨p, h, rfl⟩)
            simp [hfe, Ne.symm hpk]
          · simp only [List.mem_singleton] at h
            rw [h]
            simp only [List.filter_append]
            have h1 : es.filter (fun e2 => decide (f e2 = some k)) = [] := by
              rw [List.filter_eq_nil_iff]
              intro a ha
              simp only [decide_eq_true_eq]
              intro hak
              exact hkin (ihc a ha k hak)
            simp [h1, hfe]
        · intro e2 he2 k2 hk2
          rw [List.map_append]
          rcases List.mem_append.mp he2 with h | h
          · exact List.mem_append.mpr (Or.inl (ihc e2 h k2 hk2))
          · simp only [List.mem_singleton] at h
            rw [h, hfe] at hk2
            cases hk2
            simp
        · intro p hp
          rcases List.mem_append.mp hp with h | h
          · exact ihne p h
          · simp only [List.mem_singleton] at h
            rw [h]
            simp

/-- Each bucket of `buildIndex` is the in-order filter of its key. -/
theorem buildIndex_bucket_filter {f : Entry → Option String} {es : List Entry}
    {p : String × List Entry} (hp : p ∈ buildIndex f es) :
    p.2 = es.filter (fun e => decide (f e = some p.1)) :=
  (buildIndex_spec f es).2.1 p hp

/-- Each bucket of `buildIndex` is a sublist of the entry list. -/
theorem buildIndex_bucket_sublist {f : Entry → Option String} {es : List Entry}
    {p : String × List Entry} (hp : p ∈ buildIndex f es) :
    p.2.Sublist es := by
  rw [buildIndex_bucket_filter hp]
  exact List.filter_sublist es

/-- Members of a bucket carry that bucket's key. -/
theorem buildIndex_bucket_key {f : Entry → Option String} {es : List Entry}
    {p : String × List Entry} (hp : p ∈ buildIndex f es) {e : Entry}
    (he : e ∈ p.2) : f e = some p.1 := by
  rw [buildIndex_bucket_filter hp] at he
  simpa using (List.mem_filter.mp he).2

/-- Every keyed entry occurs in the bucket of its key. -/
theorem buildIndex_mem_bucket {f : Entry → Option String} {es : List Entry}
    {e : Entry} {k : String} (he : e ∈ es) (hk : f e = some k) :
    ∃ b, (k, b) ∈ buildIndex f es ∧ e ∈ b := by
  have hkin := (buildIndex_spec f es).2.2.1 e he k hk
  obtain ⟨p, hp, hfst⟩ := List.mem_map.mp hkin
  refine ⟨p.2, ?_, ?_⟩
  · rw [← hfst]
    exact Prod.mk.eta ▸ hp
  · rw [buildIndex_bucket_filter hp]
    exact List.mem_filter.mpr ⟨he, by simp [hk, hfst]⟩

/-- Buckets inherit distinct indices from the entry list. -/
theorem buildIndex_nodup_idx {f : Entry → Option String} {es : List Entry}
    (h : (es.map (·.idx)).Nodup) {p : String × List Entry}
    (hp : p ∈ buildIndex f es) : (p.2.map (·.idx)).Nodup :=
  (((buildIndex_bucket_sublist hp).map (·.idx)).nodup) h

/-- Distinct buckets of `buildIndex` contain entries of distinct indices,
when the underlying entry list has distinct indices. -/
theorem buildIndex_pairwise (f : Entry → Option String) (es : List Entry)
    (h : (es.map (·.idx)).Nodup) :
    (buildIndex f es).Pairwise
      (fun p q => ∀ e ∈ p.2, ∀ e2 ∈ q.2, e.idx ≠ e2.idx) := by
  have hnd := (buildIndex_spec f es).1
  have hinj := List.inj_on_of_nodup_map h
  have hkeys : (buildIndex f es).Pairwise (fun p q => p.1 ≠ q.1) :=
    List.pairwise_map.mp hnd
  refine hkeys.imp_of_mem ?_
  intro p q hpmem hqmem hne e he e2 he2 hidx
  have h1 : f e = some p.1 := buildIndex_bucket_key hpmem he
  have h2 : f e2 = some q.1 := buildIndex_bucket_key hqmem he2
  have hee : e = e2 :=
    hinj ((buildIndex_bucket_sublist hpmem).subset he)
      ((buildIndex_bucket_sublist hqmem).subset he2) hidx
  rw [hee, h2] at h1
  exact hne (Option.some.inj h1).symm

/-- The indices of `mkEntries` enumerate the input positions. -/
theorem mkEntries_idx (records : List Record) :
    (mkEntries records).map (·.idx) = List.range records.length := by
  rw [mkEntries, List.map_map]
  exact List.enum_map_fst records

/-- The indices of `mkEntries` are distinct. -/
theorem mkEntries_nodup (records : List Record) :
    ((mkEntries records).map (·.idx)).Nodup := by
  rw [mkEntries_idx]
  exact List.nodup_range records.length

/-- Membership in `mkEntries` in terms of positions. -/
theorem mem_mkEntries_iff (records : List Record) (e : Entry) :
    e ∈ mkEntries records ↔
      records[e.idx]? = some e.record ∧ e.confidence = 1 := by
  constructor
  · intro h
    obtain ⟨p, hp, he⟩ := List.mem_map.mp h
    have := List.mem_enum_iff_getElem?.mp hp
    cases he
    exact ⟨this, rfl⟩
  · intro ⟨h1, h2⟩
    refine List.mem_map.mpr ⟨(e.idx, e.record), List.mem_enum_iff_getElem?.mpr h1, ?_⟩
    cases e
    simp_all

/-- Insertion keeps the list a permutation of pushing the element in front. -/
theorem insertByKey_perm (key : Entry → Nat × Nat) (e : Entry) :
    ∀ l : List Entry, (insertByKey key e l).Perm (e :: l) := by
  intro l
  induction l with
  | nil => exact List.Perm.refl _
  | cons x xs ih =>
    by_cases h : keyLt (key x) (key e)
    · simp only [insertByKey, if_pos h]
      exact ((ih.cons x).trans (List.Perm.swap e x xs))
    · simp only [insertByKey, if_neg h]
      exact List.Perm.refl _

/-- The stable sort is a permutation. -/
theorem sortByKey_perm (key : Entry → Nat × Nat) (g : List Entry) :
    (sortByKey key g).Perm g := by
  induction g with
  | nil => exact List.Perm.refl _
  | cons x xs ih =>
    have : sortByKey key (x :: xs) = insertByKey key x (sortByKey key xs) := rfl
    rw [this]
    exact (insertByKey_perm key x (sortByKey key xs)).trans (ih.cons x)

/-- Setting a position to its own value leaves a list unchanged. -/
theorem set_getD_self : ∀ (l : List (List Entry)) (i : Nat),
    l.set i (l.getD i []) = l := by
  intro l
  induction l with
  | nil => intro i; rfl
  | cons x xs ih =>
    intro i
    cases i with
    | zero => rfl
    | succ j =>
      show x :: xs.set j ((x :: xs).getD (j + 1) []) = x :: xs
      rw [show (x :: xs).getD (j + 1) [] = xs.getD j [] from rfl, ih j]

/-- The absorption scan of Pass 2 is the identity whenever every bucket
member is already assigned (which is the only situation in which the
source invokes it): there is nothing left to absorb. -/
theorem absorbStep_id (entries : List Entry) (st : DState) (e : Entry)
    (h : ∀ u ∈ entries, u.idx ∈ st.assigned) : absorbStep entries st e = st := by
  unfold absorbStep
  by_cases he : e.idx ∈ st.assigned
  · rw [if_pos he]
    cases hfind : findGroupIdx st.groups e.idx with
    | none => rfl
    | some gi =>
      have hnews : entries.filter (fun ue => ue.idx ∉ st.assigned) = [] := by
        rw [List.filter_eq_nil_iff]
        intro a ha
        simp [h a ha]
      simp only [hnews, List.map_nil, List.append_nil, set_getD_self]
  · rw [if_neg he]

/-- Folding the absorption scan over any list is the identity when every
bucket member is assigned. -/
theorem absorb_fold_id (entries : List Entry) (st : DState)
    (h : ∀ u ∈ entries, u.idx ∈ st.assigned) :
    ∀ l : List Entry, l.foldl (absorbStep entries) st = st := by
  intro l
  induction l with
  | nil => rfl
  | cons e t ih =>
    show List.foldl (absorbStep entries) (absorbStep entries st e) t = st
    rw [absorbStep_id entries st e h]
    exact ih

/-- The Pass 1 bucket fold appends exactly the fresh members to the group
and their indices to the assigned set. -/
theorem assignFold_spec (c : ℚ) :
    ∀ (b g0 : List Entry) (a0 : List Nat),
      ∃ g1, assignFold c b (g0, a0) = (g0 ++ g1, a0 ++ g1.map (·.idx)) ∧
        (g1.map (·.idx)).Nodup ∧ (∀ i ∈ g1.map (·.idx), i ∉ a0) ∧
        (∀ e ∈ g1, ∃ e0 ∈ b, e = { e0 with confidence := c }) := by
  intro b
  induction b with
  | nil =>
    intro g0 a0
    exact ⟨[], by simp [assignFold], by simp, by simp, by simp⟩
  | cons e bt ih =>
    intro g0 a0
    by_cases he : e.idx ∈ a0
    · have hstep : assignFold c (e :: bt) (g0, a0) = assignFold c bt (g0, a0) := by
        simp [assignFold, he]
      obtain ⟨g1, heq, hnd, hfr, hmem⟩ := ih g0 a0
      exact ⟨g1, hstep ▸ heq, hnd, hfr,
        fun e2 he2 => (hmem e2 he2).elim (fun e0 h0 => ⟨e0, by simp [h0.1], h0.2⟩)⟩
    · have hstep : assignFold c (e :: bt) (g0, a0) =
          assignFold c bt (g0 ++ [{ e with confidence := c }], a0 ++ [e.idx]) := by
        simp [assignFold, he]
      obtain ⟨g2, heq, hnd, hfr, hmem⟩ := ih (g0 ++ [{ e with confidence := c }]) (a0 ++ [e.idx])
      refine ⟨{ e with confidence := c } :: g2, ?_, ?_, ?_, ?_⟩
      · rw [hstep, heq]
        simp
      · simp only [List.map_cons, List.nodup_cons]
        refine ⟨fun hin => ?_, hnd⟩
        have := hfr _ hin
        simp at this
      · intro i hi
        simp only [List.map_cons, List.mem_cons] at hi
        rcases hi with hi | hi
        · simpa [hi] using he
        · have := hfr i hi
          simp only [List.mem_append, List.mem_singleton] at this
          exact fun hia => this (Or.inl hia)
      · intro e2 he2
        rcases List.mem_cons.mp he2 with h2 | h2
        · exact ⟨e, by simp, h2⟩
        · obtain ⟨e0, h0, hh⟩ := hmem e2 h2
          exact ⟨e0, by simp [h0], hh⟩

/-- When every bucket member is fresh and the bucket has distinct indices,
the Pass 1 fold collects the whole bucket in order. -/
theorem assignFold_all (c : ℚ) :
    ∀ (b g0 : List Entry) (a0 : List Nat), (∀ e ∈ b, e.idx ∉ a0) →
      (b.map (·.idx)).Nodup →
      assignFold c b (g0, a0) =
        (g0 ++ b.map (fun e => { e with confidence := c }), a0 ++ b.map (·.idx)) := by
  intro b
  induction b with
  | nil => intro g0 a0 _ _; simp [assignFold]
  | cons e bt ih =>
    intro g0 a0 hfr hnd
    have he : e.idx ∉ a0 := hfr e (by simp)
    have hstep : assignFold c (e :: bt) (g0, a0) =
        assignFold c bt (g0 ++ [{ e with confidence := c }], a0 ++ [e.idx]) := by
      simp [assignFold, he]
    simp only [List.map_cons, List.nodup_cons] at hnd
    rw [hstep, ih _ _ (fun e2 he2 => by
      simp only [List.mem_append, List.mem_singleton]
      push_neg
      refine ⟨hfr e2 (by simp [he2]), fun hia => hnd.1 (hia ▸ List.mem_map.mpr ⟨e2, he2, rfl⟩)⟩)
      hnd.2]
    simp

/-- A Pass 1 bucket either leaves the state unchanged or appends one
non-empty group of fresh members. -/
theorem pass1Bucket_char (st : DState) (kv : String × List Entry) :
    pass1Bucket st kv = st ∨
    ∃ g1, g1 ≠ [] ∧
      pass1Bucket st kv = ⟨st.assigned ++ g1.map (·.idx), st.groups ++ [g1]⟩ ∧
      (g1.map (·.idx)).Nodup ∧ (∀ i ∈ g1.map (·.idx), i ∉ st.assigned) ∧
      (∀ e ∈ g1, ∃ e0 ∈ kv.2, e = { e0 with confidence := 1 }) := by
  by_cases hk : kv.1 = ""
  · left
    simp [pass1Bucket, hk]
  · obtain ⟨g1, heq, hnd, hfr, hmem⟩ := assignFold_spec 1 kv.2 [] st.assigned
    rw [List.nil_append] at heq
    cases g1 with
    | nil =>
      left
      simp only [pass1Bucket, if_neg hk, heq]
    | cons x xs =>
      right
      refine ⟨x :: xs, by simp, ?_, hnd, hfr, hmem⟩
      simp only [pass1Bucket, if_neg hk, heq]

/-- Pass 1 buckets preserve the state invariant. -/
theorem pass1Bucket_wf (n : Nat) (st : DState) (kv : String × List Entry)
    (hwf : WFSt n st) (hb : ∀ e ∈ kv.2, e.idx < n) :
    WFSt n (pass1Bucket st kv) := by
  rcases pass1Bucket_char st kv with h | ⟨g1, _, heq, hnd, hfr, hmem⟩
  · rw [h]; exact hwf
  · rw [heq]
    obtain ⟨hperm, hnodup, hlt⟩ := hwf
    refine ⟨?_, ?_, ?_⟩
    · show (groupIdxs (st.groups ++ [g1])).Perm (st.assigned ++ g1.map (·.idx))
      have : groupIdxs (st.groups ++ [g1]) = groupIdxs st.groups ++ g1.map (·.idx) := by
        simp [groupIdxs]
      rw [this]
      exact hperm.append_right _
    · show (st.assigned ++ g1.map (·.idx)).Nodup
      rw [List.nodup_append]
      exact ⟨hnodup, hnd, fun i hi hig => hfr i hig hi⟩
    · intro i hi
      rcases List.mem_append.mp hi with h | h
      · exact hlt i h
      · obtain ⟨e, he, hei⟩ := List.mem_map.mp h
        obtain ⟨e0, he0, hee⟩ := hmem e he
        rw [← hei, hee]
        exact hb e0 he0

/-- Pass 2 buckets preserve the state invariant. -/
theorem pass2Bucket_wf (n : Nat) (st : DState) (kv : String × List Entry)
    (hwf : WFSt n st) (hnd : (kv.2.map (·.idx)).Nodup)
    (hb : ∀ e ∈ kv.2, e.idx < n) : WFSt n (pass2Bucket st kv) := by
  by_cases hk : kv.1 = ""
  · simpa [pass2Bucket, hk] using hwf
  · by_cases hu : kv.2.filter (fun e => e.idx ∉ st.assigned) = []
    · have hall : ∀ u ∈ kv.2, u.idx ∈ st.assigned := by
        rw [List.filter_eq_nil_iff] at hu
        intro u humem
        have := hu u humem
        simpa using this
      simp only [pass2Bucket, if_neg hk, hu, if_pos rfl]
      rw [absorb_fold_id kv.2 st hall]
      exact hwf
    · simp only [pass2Bucket, if_neg hk, if_neg hu]
      obtain ⟨hperm, hnodup, hlt⟩ := hwf
      set unassigned := kv.2.filter (fun e => e.idx ∉ st.assigned) with hun
      have hui : (unassigned.map (fun e => { e with confidence := 0.95 })).map (·.idx) =
          unassigned.map (·.idx) := by
        rw [List.map_map]
        exact List.map_congr_left (fun e _ => rfl)
      refine ⟨?_, ?_, ?_⟩
      · show (groupIdxs (st.groups ++
            [unassigned.map (fun e => { e with confidence := 0.95 })])).Perm _
        have : groupIdxs (st.groups ++
            [unassigned.map (fun e => { e with confidence := 0.95 })]) =
            groupIdxs st.groups ++ unassigned.map (·.idx) := by
          simp [groupIdxs, hui]
        rw [this, hui]
        exact hperm.append_right _
      · rw [hui, List.nodup_append]
        refine ⟨hnodup, ((List.filter_sublist kv.2).map (·.idx)).nodup hnd, ?_⟩
        intro i hi hig
        obtain ⟨e, he, hei⟩ := List.mem_map.mp hig
        have := (List.mem_filter.mp he).2
        rw [hei] at this
        simp at this
        exact this hi
      · intro i hi
        rcases List.mem_append.mp hi with h | h
        · exact hlt i h
        · rw [hui] at h
          obtain ⟨e, he, hei⟩ := List.mem_map.mp h
          rw [← hei]
          exact hb e (List.mem_filter.mp he).1

/-- Appending one group per bucket (each at a fixed confidence) preserves
the state invariant when the buckets have distinct, fresh, in-range
indices and are pairwise index-disjoint. -/
theorem foldAppendGroups_wf (n : Nat) (c : ℚ) :
    ∀ (l : List (String × List Entry)) (st : DState), WFSt n st →
      (∀ p ∈ l, (p.2.map (·.idx)).Nodup ∧
        ∀ e ∈ p.2, e.idx < n ∧ e.idx ∉ st.assigned) →
      l.Pairwise (fun p q => ∀ e ∈ p.2, ∀ e2 ∈ q.2, e.idx ≠ e2.idx) →
      WFSt n (l.foldl (fun st2 nkv =>
        ⟨st2.assigned ++ (nkv.2.map (fun e => { e with confidence := c })).map (·.idx),
         st2.groups ++ [nkv.2.map (fun e => { e with confidence := c })]⟩) st) := by
  intro l
  induction l with
  | nil => intro st hwf _ _; exact hwf
  | cons kv rest ih =>
    intro st hwf hb hpw
    obtain ⟨hperm, hnodup, hlt⟩ := hwf
    obtain ⟨hbnd, hbe⟩ := hb kv (by simp)
    have hui : ((kv.2.map (fun e => { e with confidence := c })).map (·.idx)) =
        kv.2.map (·.idx) := by
      rw [List.map_map]
      exact List.map_congr_left (fun e _ => rfl)
    rw [List.foldl_cons]
    have hpwrest := (List.pairwise_cons.mp hpw).2
    have hhead := (List.pairwise_cons.mp hpw).1
    apply ih
    · refine ⟨?_, ?_, ?_⟩
      · show (groupIdxs (st.groups ++ [kv.2.map (fun e => { e with confidence := c })])).Perm _
        have : groupIdxs (st.groups ++ [kv.2.map (fun e => { e with confidence := c })]) =
            groupIdxs st.groups ++ kv.2.map (·.idx) := by
          simp [groupIdxs, hui]
        rw [this, hui]
        exact hperm.append_right _
      · show (st.assigned ++ _).Nodup
        rw [hui, List.nodup_append]
        exact ⟨hnodup, hbnd, fun i hi hig => by
          obtain ⟨e, he, hei⟩ := List.mem_map.mp hig
          exact (hbe e he).2 (hei ▸ hi)⟩
      · intro i hi
        rcases List.mem_append.mp hi with h | h
        · exact hlt i h
        · rw [hui] at h
          obtain ⟨e, he, hei⟩ := List.mem_map.mp h
          exact hei ▸ (hbe e he).1
    · intro p hp
      refine ⟨(hb p (by simp [hp])).1, fun e he => ⟨((hb p (by simp [hp])).2 e he).1, ?_⟩⟩
      intro hmem
      rcases List.mem_append.mp hmem with h | h
      · exact ((hb p (by simp [hp])).2 e he).2 h
      · rw [hui] at h
        obtain ⟨e2, he2, hei⟩ := List.mem_map.mp h
        exact hhead p hp e2 he2 e he (hei.symm ▸ rfl) |>.elim
    · exact hpwrest

/-- Pass 3 buckets preserve the state invariant. -/
theorem pass3Bucket_wf (n : Nat) (env : Env) (st : DState)
    (kv : String × List Entry) (hwf : WFSt n st)
    (hnd : (kv.2.map (·.idx)).Nodup) (hb : ∀ e ∈ kv.2, e.idx < n) :
    WFSt n (pass3Bucket env st kv) := by
  unfold pass3Bucket
  by_cases hlen : (kv.2.filter (fun e => e.idx ∉ st.assigned)).length < 2
  · rw [if_pos hlen]
    cases hcase : kv.2.filter (fun e => e.idx ∉ st.assigned) with
    | nil => exact hwf
    | cons e rest =>
      obtain ⟨hperm, hnodup, hlt⟩ := hwf
      have hefil : e ∈ kv.2.filter (fun e => e.idx ∉ st.assigned) := by
        rw [hcase]; simp
      have hfr : e.idx ∉ st.assigned := by
        have := (List.mem_filter.mp hefil).2
        simpa using this
      refine ⟨?_, ?_, ?_⟩
      · show (groupIdxs (st.groups ++ [[{ e with confidence := 0.9 }]])).Perm _
        have : groupIdxs (st.groups ++ [[{ e with confidence := 0.9 }]]) =
            groupIdxs st.groups ++ [e.idx] := by
          simp [groupIdxs]
        rw [this]
        exact hperm.append_right _
      · rw [List.nodup_append]
        exact ⟨hnodup, List.nodup_singleton _,
          fun i hi hig => by simp at hig; exact hfr (hig ▸ hi)⟩
      · intro i hi
        rcases List.mem_append.mp hi with h | h
        · exact hlt i h
        · simp at h
          exact h ▸ hb e (List.mem_filter.mp hefil).1
  · rw [if_neg hlen]
    have hsub : (kv.2.filter (fun e => e.idx ∉ st.assigned)).Sublist kv.2 :=
      List.filter_sublist kv.2
    have hndu : ((kv.2.filter (fun e => e.idx ∉ st.assigned)).map (·.idx)).Nodup :=
      (hsub.map (·.idx)).nodup hnd
    apply foldAppendGroups_wf n 0.9 _ st hwf
    · intro p hp
      refine ⟨buildIndex_nodup_idx hndu hp, fun e he => ?_⟩
      have hein := (buildIndex_bucket_sublist hp).subset he
      refine ⟨hb e (hsub.subset hein), ?_⟩
      have := (List.mem_filter.mp hein).2
      simpa using this
    · exact buildIndex_pairwise _ _ hndu

/-- Pass 1 preserves the state invariant. -/
theorem pass1_wf (n : Nat) (ix : List (String × List Entry)) (st : DState)
    (hwf : WFSt n st) (hb : ∀ p ∈ ix, ∀ e ∈ p.2, e.idx < n) :
    WFSt n (pass1 ix st) :=
  foldl_pres (WFSt n) pass1Bucket ix st hwf
    (fun kv hkv s hs => pass1Bucket_wf n s kv hs (hb kv hkv))

/-- Pass 2 preserves the state invariant. -/
theorem pass2_wf (n : Nat) (ix : List (String × List Entry)) (st : DState)
    (hwf : WFSt n st)
    (hb : ∀ p ∈ ix, (p.2.map (·.idx)).Nodup ∧ ∀ e ∈ p.2, e.idx < n) :
    WFSt n (pass2 ix st) :=
  foldl_pres (WFSt n) pass2Bucket ix st hwf
    (fun kv hkv s hs => pass2Bucket_wf n s kv hs (hb kv hkv).1 (hb kv hkv).2)

/-- Pass 3 preserves the state invariant. -/
theorem pass3_wf (n : Nat) (env : Env) (ix : List (String × List Entry))
    (st : DState) (hwf : WFSt n st)
    (hb : ∀ p ∈ ix, (p.2.map (·.idx)).Nodup ∧ ∀ e ∈ p.2, e.idx < n) :
    WFSt n (pass3 env ix st) :=
  foldl_pres (WFSt n) (pass3Bucket env) ix st hwf
    (fun kv hkv s hs => pass3Bucket_wf n env s kv hs (hb kv hkv).1 (hb kv hkv).2)

/-- The indices of a list of singleton groups. -/
theorem groupIdxs_singletons (l : List Entry) :
    groupIdxs (l.map (fun e => [e])) = l.map (·.idx) := by
  induction l with
  | nil => rfl
  | cons e t ih =>
    simp only [groupIdxs, List.map_cons, List.map_map] at ih ⊢
    rw [List.flatten_cons]
    simp only [List.map_cons, List.map_nil] at ih ⊢
    rw [ih]
    rfl

/-- The greedy clustering of Pass 4 partitions its input: the collected
group indices are a permutation of the bucket's indices (given enough
fuel). -/
theorem clusterAux_idx_perm (env : Env) :
    ∀ (fuel : Nat) (l : List Entry), l.length ≤ fuel →
      (groupIdxs (clusterAux env fuel l)).Perm (l.map (·.idx)) := by
  intro fuel
  induction fuel with
  | zero =>
    intro l hl
    rw [Nat.le_zero] at hl
    rw [List.length_eq_zero] at hl
    rw [hl]
    exact List.Perm.refl _
  | succ f ih =>
    intro l hl
    cases l with
    | nil => exact List.Perm.refl _
    | cons e rest =>
      have hrest : (rest.filter (fun e2 => ¬ simOK env e e2)).length ≤ f := by
        calc (rest.filter (fun e2 => ¬ simOK env e e2)).length
            ≤ rest.length := List.length_filter_le _ _
          _ ≤ f := Nat.le_of_succ_le_succ hl
      have hih := ih _ hrest
      show (groupIdxs ((e :: (rest.filter (simOK env e)).map
          (fun e2 => { e2 with confidence := 0.75 })) ::
          clusterAux env f (rest.filter (fun e2 => ¬ simOK env e e2)))).Perm _
      have hsplit : groupIdxs ((e :: (rest.filter (simOK env e)).map
          (fun e2 => { e2 with confidence := 0.75 })) ::
          clusterAux env f (rest.filter (fun e2 => ¬ simOK env e e2))) =
          e.idx :: ((rest.filter (simOK env e)).map (·.idx) ++
            groupIdxs (clusterAux env f (rest.filter (fun e2 => ¬ simOK env e e2)))) := by
        simp only [groupIdxs, List.map_cons, List.flatten_cons, List.map_map]
        rw [List.cons_append]
        congr 1
      rw [hsplit]
      simp only [List.map_cons]
      refine List.Perm.cons e.idx ?_
      have hperm2 := (hih.append_left ((rest.filter (simOK env e)).map (·.idx)))
      refine hperm2.trans ?_
      have hfp : (rest.filter (simOK env e) ++
          rest.filter (fun e2 => ¬ simOK env e e2)).Perm rest := by
        have := List.filter_append_perm (simOK env e) rest
        have hfc : rest.filter (fun e2 => ¬ simOK env e e2) =
            rest.filter (fun e2 => !(simOK env e e2)) := by
          apply List.filter_congr
          intro x _
          simp
        rw [hfc]
        exact this
      have := hfp.map (·.idx)
      rw [List.map_append] at this
      exact this

/-- Appending the greedy clusters of each bucket preserves the state
invariant. -/
theorem foldClusters_wf (n : Nat) (env : Env) :
    ∀ (l : List (String × List Entry)) (st : DState), WFSt n st →
      (∀ p ∈ l, (p.2.map (·.idx)).Nodup ∧
        ∀ e ∈ p.2, e.idx < n ∧ e.idx ∉ st.assigned) →
      l.Pairwise (fun p q => ∀ e ∈ p.2, ∀ e2 ∈ q.2, e.idx ≠ e2.idx) →
      WFSt n (l.foldl (fun st2 kv =>
        ⟨st2.assigned ++ groupIdxs (cluster env kv.2),
         st2.groups ++ cluster env kv.2⟩) st) := by
  intro l
  induction l with
  | nil => intro st hwf _ _; exact hwf
  | cons kv rest ih =>
    intro st hwf hb hpw
    obtain ⟨hperm, hnodup, hlt⟩ := hwf
    obtain ⟨hbnd, hbe⟩ := hb kv (by simp)
    have hcl : (groupIdxs (cluster env kv.2)).Perm (kv.2.map (·.idx)) :=
      clusterAux_idx_perm env kv.2.length kv.2 (Nat.le_refl _)
    have hmemcl : ∀ i, i ∈ groupIdxs (cluster env kv.2) ↔ i ∈ kv.2.map (·.idx) :=
      fun i => hcl.mem_iff
    rw [List.foldl_cons]
    have hpwrest := (List.pairwise_cons.mp hpw).2
    have hhead := (List.pairwise_cons.mp hpw).1
    apply ih
    · refine ⟨?_, ?_, ?_⟩
      · show (groupIdxs (st.groups ++ cluster env kv.2)).Perm _
        have : groupIdxs (st.groups ++ cluster env kv.2) =
            groupIdxs st.groups ++ groupIdxs (cluster env kv.2) := by
          simp [groupIdxs]
        rw [this]
        exact hperm.append_right _
      · rw [List.nodup_append]
        refine ⟨hnodup, hcl.nodup_iff.mpr hbnd, ?_⟩
        intro i hi hig
        obtain ⟨e, he, hei⟩ := List.mem_map.mp ((hmemcl i).mp hig)
        exact (hbe e he).2 (hei ▸ hi)
      · intro i hi
        rcases List.mem_append.mp hi with h | h
        · exact hlt i h
        · obtain ⟨e, he, hei⟩ := List.mem_map.mp ((hmemcl i).mp h)
          exact hei ▸ (hbe e he).1
    · intro p hp
      refine ⟨(hb p (by simp [hp])).1, fun e he => ⟨((hb p (by simp [hp])).2 e he).1, ?_⟩⟩
      intro hmem
      rcases List.mem_append.mp hmem with h | h
      · exact ((hb p (by simp [hp])).2 e he).2 h
      · obtain ⟨e2, he2, hei⟩ := List.mem_map.mp ((hmemcl _).mp h)
        exact (hhead p hp e2 he2 e he hei).elim
    · exact hpwrest

/-- The `remaining` list of Pass 4: distinct indices, all fresh, in range,
at confidence 0.75, each carrying its input record. -/
theorem remainingOf_spec (records : List Record) (st : DState) :
    ((remainingOf records st).map (·.idx)).Nodup ∧
    (∀ e ∈ remainingOf records st,
      e.idx < records.length ∧ e.idx ∉ st.assigned ∧ e.confidence = 0.75 ∧
      records[e.idx]? = some e.record) := by
  constructor
  · have h1 : (remainingOf records st).map (·.idx) =
        (records.enum.filter (fun p => p.1 ∉ st.assigned)).map Prod.fst := by
      rw [remainingOf, List.map_map]
      exact List.map_congr_left (fun p _ => rfl)
    rw [h1]
    have hsub : ((records.enum.filter (fun p => p.1 ∉ st.assigned)).map Prod.fst).Sublist
        (records.enum.map Prod.fst) :=
      (List.filter_sublist records.enum).map Prod.fst
    rw [List.enum_map_fst] at hsub
    exact hsub.nodup (List.nodup_range records.length)
  · intro e he
    obtain ⟨p, hp, hpe⟩ := List.mem_map.mp he
    have hpf := List.mem_filter.mp hp
    have hen := List.mem_enum_iff_getElem?.mp hpf.1
    have hlt : p.1 < records.length := (List.getElem?_eq_some_iff.mp hen).1
    refine ⟨?_, ?_, ?_, ?_⟩
    · rw [← hpe]; exact hlt
    · rw [← hpe]
      have := hpf.2
      simpa using this
    · rw [← hpe]
    · rw [← hpe]
      exact hen

/-- Pass 4 preserves the state invariant. -/
theorem pass4_wf (n : Nat) (env : Env) (records : List Record) (st : DState)
    (hn : n = records.length) (hwf : WFSt n st) :
    WFSt n (pass4 env records st) := by
  obtain ⟨hrnd, hre⟩ := remainingOf_spec records st
  by_cases hrem : remainingOf records st = []
  · simp only [pass4, hrem, if_pos rfl]
    exact hwf
  · by_cases hs : env.has_rapidfuzz
    · simp only [pass4, if_neg hrem, hs, if_pos rfl]
      apply foldClusters_wf n env _ st hwf
      · intro p hp
        refine ⟨buildIndex_nodup_idx hrnd hp, fun e he => ?_⟩
        have hein := (buildIndex_bucket_sublist hp).subset he
        exact ⟨hn ▸ (hre e hein).1, (hre e hein).2.1⟩
      · exact buildIndex_pairwise _ _ hrnd
    · simp only [pass4, if_neg hrem]
      rw [if_neg hs]
      obtain ⟨hperm, hnodup, hlt⟩ := hwf
      refine ⟨?_, ?_, ?_⟩
      · show (groupIdxs (st.groups ++
            (remainingOf records st).map (fun e => [e]))).Perm _
        have : groupIdxs (st.groups ++ (remainingOf records st).map (fun e => [e])) =
            groupIdxs st.groups ++ (remainingOf records st).map (·.idx) := by
          have h2 := groupIdxs_singletons (remainingOf records st)
          simp only [groupIdxs] at h2 ⊢
          rw [List.map_append, List.flatten_append, h2]
        rw [this]
        exact hperm.append_right _
      · rw [List.nodup_append]
        refine ⟨hnodup, hrnd, ?_⟩
        intro i hi hig
        obtain ⟨e, he, hei⟩ := List.mem_map.mp hig
        exact (hre e he).2.1 (hei ▸ hi)
      · intro i hi
        rcases List.mem_append.mp hi with h | h
        · exact hlt i h
        · obtain ⟨e, he, hei⟩ := List.mem_map.mp h
          exact hei ▸ (hn ▸ (hre e he).1)

/-- Pass 1 buckets only extend the assigned set. -/
theorem pass1Bucket_assigned_mono (st : DState) (kv : String × List Entry) :
    st.assigned ⊆ (pass1Bucket st kv).assigned := by
  rcases pass1Bucket_char st kv with h | ⟨g1, _, heq, _, _, _⟩
  · rw [h]
    exact fun i hi => hi
  · rw [heq]
    exact fun i hi => List.mem_append.mpr (Or.inl hi)

/-- The absorption scan only extends the assigned set. -/
theorem absorbStep_assigned_mono (entries : List Entry) (st : DState) (e : Entry) :
    st.assigned ⊆ (absorbStep entries st e).assigned := by
  unfold absorbStep
  by_cases he : e.idx ∈ st.assigned
  · rw [if_pos he]
    cases hfind : findGroupIdx st.groups e.idx with
    | none => exact fun i hi => hi
    | some gi => exact fun i hi => List.mem_append.mpr (Or.inl hi)
  · rw [if_neg he]
    exact fun i hi => hi

/-- Pass 2 buckets only extend the assigned set. -/
theorem pass2Bucket_assigned_mono (st : DState) (kv : String × List Entry) :
    st.assigned ⊆ (pass2Bucket st kv).assigned := by
  by_cases hk : kv.1 = ""
  · simp [pass2Bucket, hk]
  · by_cases hu : kv.2.filter (fun e => e.idx ∉ st.assigned) = []
    · simp only [pass2Bucket, if_neg hk, hu, if_pos rfl]
      exact foldl_pres (fun s => st.assigned ⊆ s.assigned) _ kv.2 st
        (fun i hi => hi)
        (fun e _ s hs => hs.trans (absorbStep_assigned_mono kv.2 s e))
    · simp only [pass2Bucket, if_neg hk, if_neg hu]
      exact fun i hi => List.mem_append.mpr (Or.inl hi)

/-- The per-bucket group-appending fold only extends the assigned set. -/
theorem foldAppendGroups_assigned_mono (c : ℚ) (l : List (String × List Entry))
    (st : DState) :
    st.assigned ⊆ (l.foldl (fun st2 nkv =>
      ⟨st2.assigned ++ (nkv.2.map (fun e => { e with confidence := c })).map (·.idx),
       st2.groups ++ [nkv.2.map (fun e => { e with confidence := c })]⟩) st).assigned :=
  foldl_pres (fun s => st.assigned ⊆ s.assigned) _ l st (fun i hi => hi)
    (fun kv _ s hs => hs.trans (fun i hi => List.mem_append.mpr (Or.inl hi)))

/-- Pass 3 buckets only extend the assigned set. -/
theorem pass3Bucket_assigned_mono (env : Env) (st : DState)
    (kv : String × List Entry) :
    st.assigned ⊆ (pass3Bucket env st kv).assigned := by
  unfold pass3Bucket
  by_cases hlen : (kv.2.filter (fun e => e.idx ∉ st.assigned)).length < 2
  · rw [if_pos hlen]
    cases kv.2.filter (fun e => e.idx ∉ st.assigned) with
    | nil => exact fun i hi => hi
    | cons e rest => exact fun i hi => List.mem_append.mpr (Or.inl hi)
  · rw [if_neg hlen]
    exact foldAppendGroups_assigned_mono 0.9 _ st

/-- Pass 1 only extends the assigned set. -/
theorem pass1_assigned_mono (ix : List (String × List Entry)) (st : DState) :
    st.assigned ⊆ (pass1 ix st).assigned :=
  foldl_pres (fun s => st.assigned ⊆ s.assigned) _ ix st (fun i hi => hi)
    (fun kv _ s hs => hs.trans (pass1Bucket_assigned_mono s kv))

/-- Pass 2 only extends the assigned set. -/
theorem pass2_assigned_mono (ix : List (String × List Entry)) (st : DState) :
    st.assigned ⊆ (pass2 ix st).assigned :=
  foldl_pres (fun s => st.assigned ⊆ s.assigned) _ ix st (fun i hi => hi)
    (fun kv _ s hs => hs.trans (pass2Bucket_assigned_mono s kv))

/-- Pass 3 only extends the assigned set. -/
theorem pass3_assigned_mono (env : Env) (ix : List (String × List Entry))
    (st : DState) : st.assigned ⊆ (pass3 env ix st).assigned :=
  foldl_pres (fun s => st.assigned ⊆ s.assigned) _ ix st (fun i hi => hi)
    (fun kv _ s hs => hs.trans (pass3Bucket_assigned_mono env s kv))

/-- Pass 4 only extends the assigned set. -/
theorem pass4_assigned_mono (env : Env) (records : List Record) (st : DState) :
    st.assigned ⊆ (pass4 env records st).assigned := by
  by_cases hrem : remainingOf records st = []
  · simp only [pass4, hrem, if_pos rfl]
    exact fun i hi => hi
  · by_cases hs : env.has_rapidfuzz
    · simp only [pass4, if_neg hrem, hs, if_pos rfl]
      exact foldl_pres (fun s => st.assigned ⊆ s.assigned)
        (fun st2 (kv : String × List Entry) =>
          ⟨st2.assigned ++ groupIdxs (cluster env kv.2),
           st2.groups ++ cluster env kv.2⟩) _ st (fun i hi => hi)
        (fun kv _ s hsub => hsub.trans (fun i hi =>
          show i ∈ s.assigned ++ groupIdxs (cluster env kv.2) from
            List.mem_append.mpr (Or.inl hi)))
    · simp only [pass4, if_neg hrem]
      rw [if_neg hs]
      exact fun i hi => List.mem_append.mpr (Or.inl hi)

/-- The per-bucket group-appending fold assigns every member of every
bucket it processes. -/
theorem foldAppendGroups_covers (c : ℚ) :
    ∀ (l : List (String × List Entry)) (st : DState) (p : String × List Entry),
      p ∈ l → ∀ e ∈ p.2,
      e.idx ∈ (l.foldl (fun st2 nkv =>
        ⟨st2.assigned ++ (nkv.2.map (fun e => { e with confidence := c })).map (·.idx),
         st2.groups ++ [nkv.2.map (fun e => { e with confidence := c })]⟩) st).assigned := by
  intro l
  induction l with
  | nil => intro st p hp; simp at hp
  | cons kv rest ih =>
    intro st p hp e he
    rw [List.foldl_cons]
    rcases List.mem_cons.mp hp with h | h
    · apply foldAppendGroups_assigned_mono
      show e.idx ∈ _ ++ _
      refine List.mem_append.mpr (Or.inr ?_)
      rw [List.map_map]
      refine List.mem_map.mpr ⟨e, ?_, rfl⟩
      rw [← h]
      exact he
    · exact ih _ p h e he

/-- Every member of every bucket is assigned after its Pass 3 bucket is
processed. -/
theorem pass3Bucket_covers (env : Env) (st : DState) (kv : String × List Entry) :
    ∀ e ∈ kv.2, e.idx ∈ (pass3Bucket env st kv).assigned := by
  intro e he
  by_cases hin : e.idx ∈ st.assigned
  · exact pass3Bucket_assigned_mono env st kv hin
  · have hef : e ∈ kv.2.filter (fun e => e.idx ∉ st.assigned) :=
      List.mem_filter.mpr ⟨he, by simpa using hin⟩
    unfold pass3Bucket
    by_cases hlen : (kv.2.filter (fun e => e.idx ∉ st.assigned)).length < 2
    · rw [if_pos hlen]
      cases hcase : kv.2.filter (fun e => e.idx ∉ st.assigned) with
      | nil => rw [hcase] at hef; simp at hef
      | cons e1 rest =>
        have hrest : rest = [] := by
          rw [hcase] at hlen
          simp only [List.length_cons] at hlen
          have h0 : rest.length = 0 := by omega
          exact List.length_eq_zero.mp h0
        rw [hcase, hrest] at hef
        simp only [List.mem_singleton] at hef
        rw [hef]
        exact List.mem_append.mpr (Or.inr (by simp))
    · rw [if_neg hlen]
      obtain ⟨b, hb, heb⟩ := buildIndex_mem_bucket (f := fun e => some (nameKey env e))
        hef rfl
      exact foldAppendGroups_covers 0.9 _ st (nameKey env e, b) hb e heb

/-- Every member of every address bucket is assigned after Pass 3. -/
theorem pass3_covers (env : Env) :
    ∀ (ix : List (String × List Entry)) (st : DState) (p : String × List Entry),
      p ∈ ix → ∀ e ∈ p.2, e.idx ∈ (pass3 env ix st).assigned := by
  intro ix
  induction ix with
  | nil => intro st p hp; simp at hp
  | cons kv rest ih =>
    intro st p hp e he
    rcases List.mem_cons.mp hp with h | h
    · show e.idx ∈ (pass3 env rest (pass3Bucket env st kv)).assigned
      exact pass3_assigned_mono env rest _ (pass3Bucket_covers env st kv e (h ▸ he))
    · exact ih _ p h e he

/-- The per-bucket clustering fold assigns every member of every bucket it
processes. -/
theorem foldClusters_covers (env : Env) :
    ∀ (l : List (String × List Entry)) (st : DState) (p : String × List Entry),
      p ∈ l → ∀ e ∈ p.2,
      e.idx ∈ (l.foldl (fun st2 kv =>
        ⟨st2.assigned ++ groupIdxs (cluster env kv.2),
         st2.groups ++ cluster env kv.2⟩) st).assigned := by
  intro l
  induction l with
  | nil => intro st p hp; simp at hp
  | cons kv rest ih =>
    intro st p hp e he
    rw [List.foldl_cons]
    rcases List.mem_cons.mp hp with h | h
    · have hmono : ∀ s : DState, s.assigned ⊆ (rest.foldl (fun st2 kv =>
          (⟨st2.assigned ++ groupIdxs (cluster env kv.2),
           st2.groups ++ cluster env kv.2⟩ : DState)) s).assigned :=
        fun s => foldl_pres (fun s2 => s.assigned ⊆ s2.assigned) _ rest s
          (fun i hi => hi)
          (fun kv2 _ s2 hsub => hsub.trans (fun i hi =>
            show i ∈ s2.assigned ++ groupIdxs (cluster env kv2.2) from
              List.mem_append.mpr (Or.inl hi)))
      apply hmono
      show e.idx ∈ _ ++ groupIdxs (cluster env kv.2)
      refine List.mem_append.mpr (Or.inr ?_)
      have hperm : (groupIdxs (cluster env kv.2)).Perm (kv.2.map (·.idx)) :=
        clusterAux_idx_perm env kv.2.length kv.2 (Nat.le_refl _)
      rw [hperm.mem_iff]
      refine List.mem_map.mpr ⟨e, ?_, rfl⟩
      rw [← h]
      exact he
    · exact ih _ p h e he

/-- Pass 4 assigns every remaining record, with or without the scorer. -/
theorem pass4_covers (env : Env) (records : List Record) (st : DState) :
    ∀ e ∈ remainingOf records st, e.idx ∈ (pass4 env records st).assigned := by
  intro e he
  by_cases hrem : remainingOf records st = []
  · rw [hrem] at he
    simp at he
  · by_cases hs : env.has_rapidfuzz
    · simp only [pass4, if_neg hrem, hs, if_pos rfl]
      obtain ⟨b, hb, heb⟩ := buildIndex_mem_bucket
        (f := fun e => some (e.record.zip5.take 5)) he rfl
      exact foldClusters_covers env _ st (e.record.zip5.take 5, b) hb e heb
    · simp only [pass4, if_neg hrem]
      rw [if_neg hs]
      exact List.mem_append.mpr (Or.inr (List.mem_map.mpr ⟨e, he, rfl⟩))

/-- After Pass 4 every input position is assigned: Pass 3 leaves only the
`remaining` records unassigned and Pass 4 assigns all of them in both
branches. -/
theorem pass4_covers_all (env : Env) (records : List Record) (st : DState) :
    ∀ i < records.length, i ∈ (pass4 env records st).assigned := by
  intro i hi
  by_cases hin : i ∈ st.assigned
  · exact pass4_assigned_mono env records st hin
  · have hen : (i, records[i]) ∈ records.enum :=
      List.mem_enum_iff_getElem?.mpr (List.getElem?_eq_getElem hi)
    have hrem : (⟨i, records[i], 0.75⟩ : Entry) ∈ remainingOf records st := by
      refine List.mem_map.mpr ⟨(i, records[i]), ?_, rfl⟩
      exact List.mem_filter.mpr ⟨hen, by simpa using hin⟩
    exact pass4_covers env records st _ hrem

/-- Characterization of the Pass 5 fold from any starting accumulator: the
assigned set is never updated, and one singleton group and one review flag
are appended per unassigned enumerated record. -/
theorem pass5_aux (a0 : List Nat) :
    ∀ (l : List (Nat × Record)) (gs : List (List Entry)) (fl : List ReviewFlag),
      l.foldl (fun (p : DState × List ReviewFlag) (q : Nat × Record) =>
        if q.1 ∈ p.1.assigned then p
        else (⟨p.1.assigned, p.1.groups ++ [[(⟨q.1, q.2, 0.5⟩ : Entry)]]⟩,
              p.2 ++ [(⟨q.2, "Unmatched record", 0.5⟩ : ReviewFlag)]))
        ((⟨a0, gs⟩ : DState), fl) =
      ((⟨a0, gs ++ (l.filter (fun q => q.1 ∉ a0)).map
          (fun q => [(⟨q.1, q.2, 0.5⟩ : Entry)])⟩ : DState),
       fl ++ (l.filter (fun q => q.1 ∉ a0)).map
         (fun q => (⟨q.2, "Unmatched record", 0.5⟩ : ReviewFlag))) := by
  intro l
  induction l with
  | nil => intro gs fl; simp
  | cons q t ih =>
    intro gs fl
    rw [List.foldl_cons]
    by_cases hq : q.1 ∈ a0
    · rw [if_pos hq]
      rw [ih gs fl]
      have hfil : (q :: t).filter (fun q => q.1 ∉ a0) =
          t.filter (fun q => q.1 ∉ a0) := by
        rw [List.filter_cons]
        simp [hq]
      rw [hfil]
    · rw [if_neg hq]
      rw [ih (gs ++ [[(⟨q.1, q.2, 0.5⟩ : Entry)]])
        (fl ++ [(⟨q.2, "Unmatched record", 0.5⟩ : ReviewFlag)])]
      have hfil : (q :: t).filter (fun q => q.1 ∉ a0) =
          q :: t.filter (fun q => q.1 ∉ a0) := by
        rw [List.filter_cons]
        simp [hq]
      rw [hfil]
      simp

/-- Pass 5 in closed form. -/
theorem pass5_spec (records : List Record) (st : DState) :
    pass5 records st =
      (⟨st.assigned, st.groups ++
          (records.enum.filter (fun q => q.1 ∉ st.assigned)).map
            (fun q => [⟨q.1, q.2, 0.5⟩])⟩,
       (records.enum.filter (fun q => q.1 ∉ st.assigned)).map
         (fun q => ⟨q.2, "Unmatched record", 0.5⟩)) :=
  pass5_aux st.assigned records.enum st.groups []

/-- After Pass 4 every enumerated input position is assigned, so the
Pass 5 filter is empty. -/
theorem pass5_filter_nil (env : Env) (records : List Record) :
    records.enum.filter
      (fun q => q.1 ∉ (pass4 env records (afterPass3 env records)).assigned) = [] := by
  rw [List.filter_eq_nil_iff]
  intro q hq
  have hlt : q.1 < records.length :=
    (List.getElem?_eq_some_iff.mp (List.mem_enum_iff_getElem?.mp hq)).1
  simpa using pass4_covers_all env records (afterPass3 env records) q.1 hlt

/-- The review flag list of `deduplicate` is empty on every input: Pass 4
assigns every record still unassigned after Pass 3 (in both the fuzzy and
the degraded branch), so Pass 5 never creates a flag. -/
theorem dedup_flags_nil (env : Env) (records : List Record) :
    (dedupState env records).2 = [] := by
  show (pass5 records (pass4 env records (afterPass3 env records))).2 = []
  rw [pass5_spec, pass5_filter_nil]
  rfl

/-- Pass 5 also adds no group: the final groups are the Pass 4 groups. -/
theorem dedupGroups_eq_pass4 (env : Env) (records : List Record) :
    dedupGroups env records = (pass4 env records (afterPass3 env records)).groups := by
  show (pass5 records (pass4 env records (afterPass3 env records))).1.groups = _
  rw [pass5_spec, pass5_filter_nil]
  simp

/-- Bucket members over `mkEntries` have distinct, in-range indices. -/
theorem mkEntries_bucket_facts (f : Entry → Option String) (records : List Record) :
    ∀ p ∈ buildIndex f (mkEntries records),
      (p.2.map (·.idx)).Nodup ∧ ∀ e ∈ p.2, e.idx < records.length := by
  intro p hp
  refine ⟨buildIndex_nodup_idx (mkEntries_nodup records) hp, fun e he => ?_⟩
  have hein := (buildIndex_bucket_sublist hp).subset he
  have := (mem_mkEntries_iff records e).mp hein
  exact (List.getElem?_eq_some_iff.mp this.1).1

/-- The state after Pass 3 satisfies the invariant. -/
theorem afterPass3_wf (env : Env) (records : List Record) :
    WFSt records.length (afterPass3 env records) := by
  unfold afterPass3
  apply pass3_wf _ env _ _ _ (mkEntries_bucket_facts _ records)
  apply pass2_wf _ _ _ _ (mkEntries_bucket_facts _ records)
  apply pass1_wf _ _ _ ?_ (fun p hp => (mkEntries_bucket_facts _ records p hp).2)
  exact ⟨List.Perm.refl [], List.nodup_nil, fun i hi => absurd hi (List.not_mem_nil i)⟩

/-- The state after Pass 4 satisfies the invariant. -/
theorem afterPass4_wf (env : Env) (records : List Record) :
    WFSt records.length (pass4 env records (afterPass3 env records)) :=
  pass4_wf records.length env records _ rfl (afterPass3_wf env records)

/-- The Pass 4 assigned set is a permutation of the input positions. -/
theorem afterPass4_assigned_perm (env : Env) (records : List Record) :
    (pass4 env records (afterPass3 env records)).assigned.Perm
      (List.range records.length) := by
  obtain ⟨hperm, hnodup, hlt⟩ := afterPass4_wf env records
  rw [List.perm_ext_iff_of_nodup hnodup (List.nodup_range records.length)]
  intro i
  constructor
  · intro h
    exact List.mem_range.mpr (hlt i h)
  · intro h
    exact pass4_covers_all env records _ i (List.mem_range.mp h)

/-- C9: for every environment and input list, the review_flags list
returned by `deduplicate` is empty — Pass 4 marks every record that is
unassigned after Pass 3 as assigned in both of its branches, so the Pass 5
loop that creates ReviewFlag entries never finds an unassigned record. -/
theorem C9_review_flags_unreachable (env : Env) (records : List Record) :
    (deduplicate env records).2 = [] :=
  dedup_flags_nil env records

/-- C1, amended: every input position is collected in exactly one match
group (the group index lists flatten to a permutation of the input
positions), so each record contributes to exactly one pre-filter merged
lead; the returned merged_leads are a sublist of the pre-filter leads (the
entity filter only removes whole leads), so in the final output each record
appears in at most one lead — records of removed individual leads appear in
none. -/
theorem C1_assignment_totality_amended (env : Env) (records : List Record) :
    (groupIdxs (dedupGroups env records)).Perm (List.range records.length) ∧
    ((deduplicate env records).1).Sublist (preFilterLeads env records) := by
  constructor
  · rw [dedupGroups_eq_pass4]
    exact (afterPass4_wf env records).1.trans (afterPass4_assigned_perm env records)
  · show (entityFilter env (preFilterLeads env records)).Sublist _
    exact List.filter_sublist _

/-- C10, amended: every record whose address-block key is non-None is
assigned by the end of Pass 3 at the latest, so every record reaching
Pass 4's fuzzy comparison has a None address key (all of normalized
address, upper-cased city, and zip5 prefix empty).  The converse fails:
a record with an empty address block may already be assigned by Pass 1 or
2 (see the counterexample). -/
theorem C10_pass3_exhausts_addressed (env : Env) (records : List Record)
    (e : Entry) (h : e ∈ remainingAfterPass3 env records) :
    make_address_key env e.record = none := by
  obtain ⟨p, hp, hpe⟩ := List.mem_map.mp h
  have hpf := List.mem_filter.mp hp
  by_contra hkey
  obtain ⟨k, hk⟩ : ∃ k, make_address_key env e.record = some k := by
    cases hm : make_address_key env e.record with
    | none => exact absurd hm hkey
    | some k => exact ⟨k, rfl⟩
  have hen : records[p.1]? = some p.2 := List.mem_enum_iff_getElem?.mp hpf.1
  have hme : (⟨p.1, p.2, 1⟩ : Entry) ∈ mkEntries records :=
    (mem_mkEntries_iff records _).mpr ⟨hen, rfl⟩
  have hrec : e.record = p.2 := by rw [← hpe]
  have hadk : addrKey env (⟨p.1, p.2, 1⟩ : Entry) = some k := by
    show make_address_key env p.2 = some k
    rw [← hrec]
    exact hk
  obtain ⟨b, hb, heb⟩ := buildIndex_mem_bucket hme hadk
  have hcov : (⟨p.1, p.2, 1⟩ : Entry).idx ∈ (afterPass3 env records).assigned :=
    pass3_covers env (buildIndex (addrKey env) (mkEntries records)) _ (k, b) hb _ heb
  have hnotin := hpf.2
  simp only [decide_eq_true_eq] at hnotin
  exact hnotin hcov

/-- Witness for C10's amended theorem: on a single all-empty record the
`remaining` list contains its entry and the address key is None. -/
theorem C10_pass3_exhausts_addressed_witness :
    make_address_key env0 (⟨0, emptyR, 0.75⟩ : Entry).record = none :=
  C10_pass3_exhausts_addressed env0 [emptyR] ⟨0, emptyR, 0.75⟩
    (by rw [show remainingAfterPass3 env0 [emptyR] =
          [⟨0, emptyR, 0.75⟩] from rfl]
        exact List.mem_singleton_self _)

/-- C4, amended: with the similarity scorer capability absent, Pass 4
never merges two distinct records — every record still unassigned after
Pass 3 is appended as its own singleton group — but every such singleton
carries sources confidence 0.75 (not an unboosted value) and no review
flag is produced (the review list is empty). -/
theorem C4_degraded_mode_amended (env : Env) (records : List Record)
    (h : env.has_rapidfuzz = false) :
    (deduplicate env records).2 = [] ∧
    dedupGroups env records =
      (afterPass3 env records).groups ++
        (remainingAfterPass3 env records).map (fun e => [e]) ∧
    ∀ e ∈ remainingAfterPass3 env records, e.confidence = 0.75 := by
  refine ⟨dedup_flags_nil env records, ?_, ?_⟩
  · rw [dedupGroups_eq_pass4]
    by_cases hrem : remainingOf records (afterPass3 env records) = []
    · simp only [pass4, hrem, if_pos rfl]
      show (afterPass3 env records).groups =
        _ ++ (remainingAfterPass3 env records).map _
      rw [show remainingAfterPass3 env records =
          remainingOf records (afterPass3 env records) from rfl, hrem]
      simp
    · simp only [pass4, if_neg hrem]
      rw [if_neg (by simp [h])]
      rfl
  · intro e he
    exact ((remainingOf_spec records (afterPass3 env records)).2 e he).2.2.1

/-- Witness for C4's amended theorem at a concrete scorerless run. -/
theorem C4_degraded_mode_amended_witness :
    (deduplicate envNoFuzz [c4recA, c4recB]).2 = [] ∧
    dedupGroups envNoFuzz [c4recA, c4recB] =
      (afterPass3 envNoFuzz [c4recA, c4recB]).groups ++
        (remainingAfterPass3 envNoFuzz [c4recA, c4recB]).map (fun e => [e]) ∧
    ∀ e ∈ remainingAfterPass3 envNoFuzz [c4recA, c4recB], e.confidence = 0.75 :=
  C4_degraded_mode_amended envNoFuzz [c4recA, c4recB] rfl

/-- Pass 1 buckets keep every existing group. -/
theorem pass1Bucket_groups_mono (st : DState) (kv : String × List Entry)
    {g : List Entry} (h : g ∈ st.groups) : g ∈ (pass1Bucket st kv).groups := by
  rcases pass1Bucket_char st kv with heq | ⟨g1, _, heq, _, _, _⟩ <;> rw [heq]
  · exact h
  · exact List.mem_append.mpr (Or.inl h)

/-- Pass 2 buckets keep every existing group (the absorption scan runs only
when it has nothing to absorb). -/
theorem pass2Bucket_groups_mono (st : DState) (kv : String × List Entry)
    {g : List Entry} (h : g ∈ st.groups) : g ∈ (pass2Bucket st kv).groups := by
  by_cases hk : kv.1 = ""
  · simpa [pass2Bucket, hk] using h
  · by_cases hu : kv.2.filter (fun e => e.idx ∉ st.assigned) = []
    · have hall : ∀ u ∈ kv.2, u.idx ∈ st.assigned := by
        rw [List.filter_eq_nil_iff] at hu
        intro u humem
        simpa using hu u humem
      simp only [pass2Bucket, if_neg hk, hu, if_pos rfl]
      rw [absorb_fold_id kv.2 st hall]
      exact h
    · simp only [pass2Bucket, if_neg hk, if_neg hu]
      exact List.mem_append.mpr (Or.inl h)

/-- Pass 3 buckets keep every existing group. -/
theorem pass3Bucket_groups_mono (env : Env) (st : DState)
    (kv : String × List Entry) {g : List Entry} (h : g ∈ st.groups) :
    g ∈ (pass3Bucket env st kv).groups := by
  unfold pass3Bucket
  by_cases hlen : (kv.2.filter (fun e => e.idx ∉ st.assigned)).length < 2
  · rw [if_pos hlen]
    cases kv.2.filter (fun e => e.idx ∉ st.assigned) with
    | nil => exact h
    | cons e rest => exact List.mem_append.mpr (Or.inl h)
  · rw [if_neg hlen]
    exact foldl_pres (fun s => g ∈ s.groups)
      (fun st2 (nkv : String × List Entry) =>
        ⟨st2.assigned ++ ((nkv.2.map (fun e => { e with confidence := 0.9 })).map (·.idx)),
         st2.groups ++ [nkv.2.map (fun e => { e with confidence := 0.9 })]⟩) _ st h
      (fun nkv _ s hs => List.mem_append.mpr (Or.inl hs))

/-- Pass 4 keeps every existing group. -/
theorem pass4_groups_mono (env : Env) (records : List Record) (st : DState)
    {g : List Entry} (h : g ∈ st.groups) : g ∈ (pass4 env records st).groups := by
  by_cases hrem : remainingOf records st = []
  · simpa [pass4, hrem] using h
  · by_cases hs : env.has_rapidfuzz
    · simp only [pass4, if_neg hrem, hs, if_pos rfl]
      exact foldl_pres (fun s => g ∈ s.groups)
        (fun st2 (kv : String × List Entry) =>
          ⟨st2.assigned ++ groupIdxs (cluster env kv.2),
           st2.groups ++ cluster env kv.2⟩) _ st h
        (fun kv _ s hs2 => List.mem_append.mpr (Or.inl hs2))
    · simp only [pass4, if_neg hrem]
      rw [if_neg hs]
      exact List.mem_append.mpr (Or.inl h)

/-- A group present after Pass 1 is among the final groups of
`deduplicate`: the later passes only append groups (and Pass 5 appends
nothing at all). -/
theorem groups_persist (env : Env) (records : List Record) {g : List Entry}
    (h : g ∈ (pass1 (buildIndex npiKey (mkEntries records)) ⟨[], []⟩).groups) :
    g ∈ dedupGroups env records := by
  rw [dedupGroups_eq_pass4]
  apply pass4_groups_mono
  show g ∈ (pass3 env _ (pass2 _ _)).groups
  refine foldl_pres (fun s => g ∈ s.groups) _ _ _ ?_
    (fun kv _ s hs => pass3Bucket_groups_mono env s kv hs)
  exact foldl_pres (fun s => g ∈ s.groups) _ _ _ h
    (fun kv _ s hs => pass2Bucket_groups_mono s kv hs)

/-- Every group of every greedy cluster is non-empty. -/
theorem clusterAux_ne_nil (env : Env) :
    ∀ (fuel : Nat) (l : List Entry) (g : List Entry),
      g ∈ clusterAux env fuel l → g ≠ [] := by
  intro fuel
  induction fuel with
  | zero => intro l g hg; simp [clusterAux] at hg
  | succ f ih =>
    intro l g hg
    cases l with
    | nil => simp [clusterAux] at hg
    | cons e rest =>
      rcases List.mem_cons.mp hg with h | h
      · rw [h]
        simp
      · exact ih _ g h

/-- Every group built by `deduplicate` is non-empty. -/
theorem dedupGroups_ne_nil (env : Env) (records : List Record) :
    ∀ g ∈ dedupGroups env records, g ≠ [] := by
  rw [dedupGroups_eq_pass4]
  have hP : ∀ (st : DState) (kv : String × List Entry),
      (∀ g ∈ st.groups, g ≠ []) → ∀ g ∈ (pass1Bucket st kv).groups, g ≠ [] := by
    intro st kv hst g hg
    rcases pass1Bucket_char st kv with heq | ⟨g1, hg1, heq, _, _, _⟩ <;> rw [heq] at hg
    · exact hst g hg
    · rcases List.mem_append.mp hg with h | h
      · exact hst g h
      · simp only [List.mem_singleton] at h
        exact h ▸ hg1
  have h1 : ∀ g ∈ (pass1 (buildIndex npiKey (mkEntries records)) ⟨[], []⟩).groups,
      g ≠ [] := by
    refine foldl_pres (fun s => ∀ g ∈ s.groups, g ≠ []) _ _ _ ?_
      (fun kv _ s hs => hP s kv hs)
    intro g hg
    simp at hg
  have h2 : ∀ g ∈ (pass2 (buildIndex licKey (mkEntries records))
      (pass1 (buildIndex npiKey (mkEntries records)) ⟨[], []⟩)).groups, g ≠ [] := by
    refine foldl_pres (fun (s : DState) => ∀ g ∈ s.groups, g ≠ []) pass2Bucket
      (buildIndex licKey (mkEntries records)) _ h1 ?_
    intro kv _ s hs g hg
    by_cases hk : kv.1 = ""
    · rw [show pass2Bucket s kv = s by simp [pass2Bucket, hk]] at hg
      exact hs g hg
    · by_cases hu : kv.2.filter (fun e => e.idx ∉ s.assigned) = []
      · have hall : ∀ u ∈ kv.2, u.idx ∈ s.assigned := by
          rw [List.filter_eq_nil_iff] at hu
          intro u humem
          simpa using hu u humem
        simp only [pass2Bucket, if_neg hk, hu, if_pos rfl] at hg
        rw [absorb_fold_id kv.2 s hall] at hg
        exact hs g hg
      · simp only [pass2Bucket, if_neg hk, if_neg hu] at hg
        rcases List.mem_append.mp hg with h | h
        · exact hs g h
        · simp only [List.mem_singleton] at h
          rw [h]
          intro hmap
          exact hu (List.map_eq_nil_iff.mp hmap)
  have h3 : ∀ g ∈ (afterPass3 env records).groups, g ≠ [] := by
    refine foldl_pres (fun (s : DState) => ∀ g ∈ s.groups, g ≠ []) (pass3Bucket env)
      (buildIndex (addrKey env) (mkEntries records)) _ h2 ?_
    intro kv _ s hs g hg
    unfold pass3Bucket at hg
    by_cases hlen : (kv.2.filter (fun e => e.idx ∉ s.assigned)).length < 2
    · rw [if_pos hlen] at hg
      cases hcase : kv.2.filter (fun e => e.idx ∉ s.assigned) with
      | nil => rw [hcase] at hg; exact hs g hg
      | cons e rest =>
        rw [hcase] at hg
        rcases List.mem_append.mp hg with h | h
        · exact hs g h
        · simp only [List.mem_singleton] at h
          rw [h]
          simp
    · rw [if_neg hlen] at hg
      refine foldl_pres (fun (s2 : DState) => ∀ g2 ∈ s2.groups, g2 ≠ [])
        (fun st2 (nkv : String × List Entry) =>
          ⟨st2.assigned ++ ((nkv.2.map (fun e => { e with confidence := 0.9 })).map (·.idx)),
           st2.groups ++ [nkv.2.map (fun e => { e with confidence := 0.9 })]⟩)
        (buildIndex (fun e => some (nameKey env e))
          (kv.2.filter (fun e => e.idx ∉ s.assigned))) s hs ?_ g hg
      intro nkv hnkv s2 hs2 g2 hg2
      rcases List.mem_append.mp hg2 with h | h
      · exact hs2 g2 h
      · simp only [List.mem_singleton] at h
        rw [h]
        intro hmap
        exact (buildIndex_spec _ _).2.2.2 nkv hnkv (List.map_eq_nil_iff.mp hmap)
  intro g hg
  by_cases hrem : remainingOf records (afterPass3 env records) = []
  · rw [show pass4 env records (afterPass3 env records) = afterPass3 env records by
      simp [pass4, hrem]] at hg
    exact h3 g hg
  · by_cases hsc : env.has_rapidfuzz
    · simp only [pass4, if_neg hrem, hsc, if_pos rfl] at hg
      refine foldl_pres (fun (s2 : DState) => ∀ g2 ∈ s2.groups, g2 ≠ [])
        (fun st2 (kv : String × List Entry) =>
          (⟨st2.assigned ++ groupIdxs (cluster env kv.2),
            st2.groups ++ cluster env kv.2⟩ : DState)) _
        (afterPass3 env records) h3 ?_ g hg
      intro kv _ s2 hs2 g2 hg2
      rcases List.mem_append.mp hg2 with h | h
      · exact hs2 g2 h
      · exact clusterAux_ne_nil env _ _ g2 h
    · simp only [pass4, if_neg hrem] at hg
      rw [if_neg hsc] at hg
      rcases List.mem_append.mp hg with h | h
      · exact h3 g h
      · obtain ⟨e, _, he⟩ := List.mem_map.mp h
        rw [← he]
        simp

/-- The sources of a merged group are one entry per member (the sorted
order for multi-member groups, the member itself for singletons). -/
theorem merge_records_sources (g : List Entry) (hne : g ≠ []) :
    (merge_records g).sources.Perm (g.map entryOf) := by
  match g with
  | [e] => exact List.Perm.refl _
  | e1 :: e2 :: rest =>
    have hperm := sortByKey_perm entryKey (e1 :: e2 :: rest)
    cases hsg : sortByKey entryKey (e1 :: e2 :: rest) with
    | nil =>
      rw [hsg] at hperm
      have := hperm.length_eq
      simp at this
    | cons b t =>
      have hs : (merge_records (e1 :: e2 :: rest)).sources =
          (sortByKey entryKey (e1 :: e2 :: rest)).map entryOf := by
        simp only [merge_records]
        rw [hsg]
      rw [hs]
      exact hperm.map entryOf

/-- C8: every merged lead emitted by `deduplicate` (for any environment and
input) carries a non-empty sources list with one entry per member of its
match group, each entry holding that member's source, source_id and
confidence (`entryOf`). -/
theorem C8_sources_invariant (env : Env) (records : List Record) (lead : Lead)
    (h : lead ∈ (deduplicate env records).1) :
    lead.sources ≠ [] ∧
    ∃ g ∈ dedupGroups env records, g ≠ [] ∧ lead.sources.Perm (g.map entryOf) := by
  have hpre : lead ∈ preFilterLeads env records :=
    List.mem_of_mem_filter h
  obtain ⟨g, hg, hlead⟩ := List.mem_map.mp hpre
  have hne := dedupGroups_ne_nil env records g hg
  have hsrc : lead.sources = (merge_records g).sources := by
    rw [← hlead]
    rfl
  have hperm : lead.sources.Perm (g.map entryOf) :=
    hsrc ▸ merge_records_sources g hne
  refine ⟨?_, g, hg, hne, hperm⟩
  intro hnil
  have hlen := hperm.length_eq
  rw [hnil] at hlen
  simp only [List.length_nil, List.length_map] at hlen
  exact hne (List.length_eq_zero.mp hlen.symm)

/-- Witness for C8 at a one-record input. -/
theorem C8_sources_invariant_witness :
    (⟨c8rec, [⟨"npi", "npi-8", 1⟩]⟩ : Lead).sources ≠ [] ∧
    ∃ g ∈ dedupGroups env0 [c8rec], g ≠ [] ∧
      (⟨c8rec, [⟨"npi", "npi-8", 1⟩]⟩ : Lead).sources.Perm (g.map entryOf) :=
  C8_sources_invariant env0 [c8rec] ⟨c8rec, [⟨"npi", "npi-8", 1⟩]⟩
    (by rw [show (deduplicate env0 [c8rec]).1 =
          [⟨c8rec, [⟨"npi", "npi-8", 1⟩]⟩] from rfl]
        exact List.mem_singleton_self _)

/-- Pass 1 keeps every existing group. -/
theorem pass1_groups_mono (ix : List (String × List Entry)) (st : DState)
    {g : List Entry} (h : g ∈ st.groups) : g ∈ (pass1 ix st).groups :=
  foldl_pres (fun s => g ∈ s.groups) pass1Bucket ix st h
    (fun kv _ s hs => pass1Bucket_groups_mono s kv hs)

/-- Pass 1 turns each non-empty bucket with a non-empty key whose members
are all unassigned into one group at confidence 1.0 — the whole bucket,
in order. -/
theorem pass1_forms_group :
    ∀ (ix : List (String × List Entry)) (st : DState) (k : String)
      (b : List Entry),
      (k, b) ∈ ix → k ≠ "" → b ≠ [] →
      (∀ p ∈ ix, (p.2.map (·.idx)).Nodup) →
      (∀ p ∈ ix, ∀ e ∈ p.2, e.idx ∉ st.assigned) →
      ix.Pairwise (fun p q => ∀ e ∈ p.2, ∀ e2 ∈ q.2, e.idx ≠ e2.idx) →
      (b.map (fun e => { e with confidence := 1 })) ∈ (pass1 ix st).groups := by
  intro ix
  induction ix with
  | nil => intro st k b hmem; simp at hmem
  | cons kv rest ih =>
    intro st k b hmem hk hbne hnd hfr hpw
    rcases List.mem_cons.mp hmem with h | h
    · have hb2 : kv.2 = b := by rw [← h]
      have hk1 : kv.1 ≠ "" := by rw [← h]; exact hk
      have hall := assignFold_all 1 kv.2 [] st.assigned
        (fun e he => hfr kv (by simp) e he) (hnd kv (by simp))
      rw [List.nil_append] at hall
      cases hmap : kv.2.map (fun e => { e with confidence := 1 }) with
      | nil =>
        rw [List.map_eq_nil_iff] at hmap
        rw [hmap] at hb2
        exact absurd hb2.symm hbne
      | cons x xs =>
        have hbucket : pass1Bucket st kv =
            ⟨st.assigned ++ kv.2.map (·.idx), st.groups ++ [x :: xs]⟩ := by
          simp only [pass1Bucket, if_neg hk1, hall, hmap]
        show (b.map _) ∈ (pass1 rest (pass1Bucket st kv)).groups
        apply pass1_groups_mono
        rw [hbucket]
        refine List.mem_append.mpr (Or.inr ?_)
        simp only [List.mem_singleton]
        rw [← hmap, hb2]
    · show (b.map _) ∈ (pass1 rest (pass1Bucket st kv)).groups
      refine ih (pass1Bucket st kv) k b h hk hbne
        (fun p hp => hnd p (by simp [hp])) ?_ (List.pairwise_cons.mp hpw).2
      intro p hp e he hein
      rcases pass1Bucket_char st kv with heq | ⟨g1, _, heq, _, _, hmem1⟩
      · rw [heq] at hein
        exact hfr p (by simp [hp]) e he hein
      · rw [heq] at hein
        rcases List.mem_append.mp hein with h2 | h2
        · exact hfr p (by simp [hp]) e he h2
        · obtain ⟨e1, he1, hei⟩ := List.mem_map.mp h2
          obtain ⟨e0, he0, hee⟩ := hmem1 e1 he1
          have hhead := (List.pairwise_cons.mp hpw).1 p hp
          have hidx : e0.idx = e.idx := by
            rw [← hei, hee]
          exact hhead e0 he0 e he hidx

/-- Inversion for the NPI index key. -/
theorem npiKey_inv {e : Entry} {v : String} (h : npiKey e = some v) :
    e.record.npi_number = v := by
  unfold npiKey at h
  by_cases hn : e.record.npi_number = ""
  · rw [if_pos hn] at h
    cases h
  · rw [if_neg hn] at h
    exact Option.some.inj h

/-- C5, amended: all records sharing a non-empty NPI number are collected
by Pass 1 into one common match group, every member at confidence 1.0 and
carrying that NPI number, and the group's merged lead is among the
pre-filter merged leads.  (The final output may still drop that lead: the
entity filter removes individual leads at organization addresses — see the
counterexample.) -/
theorem C5_identifier_dominance_amended (env : Env) (records : List Record)
    (v : String) (i j : Nat) (ri rj : Record)
    (hv : v ≠ "") (hi : records[i]? = some ri) (hj : records[j]? = some rj)
    (hvi : ri.npi_number = v) (hvj : rj.npi_number = v) :
    ∃ g ∈ dedupGroups env records,
      (∃ e ∈ g, e.idx = i ∧ e.record = ri ∧ e.confidence = 1) ∧
      (∃ e ∈ g, e.idx = j ∧ e.record = rj ∧ e.confidence = 1) ∧
      (∀ e ∈ g, e.confidence = 1 ∧ e.record.npi_number = v) ∧
      stripLead (merge_records g) ∈ preFilterLeads env records := by
  have hei : (⟨i, ri, 1⟩ : Entry) ∈ mkEntries records :=
    (mem_mkEntries_iff _ _).mpr ⟨hi, rfl⟩
  have hki : npiKey (⟨i, ri, 1⟩ : Entry) = some v := by
    simp only [npiKey]
    rw [show (⟨i, ri, 1⟩ : Entry).record.npi_number = v from hvi]
    rw [if_neg hv]
  obtain ⟨b, hb, hib⟩ := buildIndex_mem_bucket hei hki
  have hej : (⟨j, rj, 1⟩ : Entry) ∈ mkEntries records :=
    (mem_mkEntries_iff _ _).mpr ⟨hj, rfl⟩
  have hkj : npiKey (⟨j, rj, 1⟩ : Entry) = some v := by
    simp only [npiKey]
    rw [show (⟨j, rj, 1⟩ : Entry).record.npi_number = v from hvj]
    rw [if_neg hv]
  have hjb : (⟨j, rj, 1⟩ : Entry) ∈ b := by
    have hfil : b = (mkEntries records).filter (fun e => decide (npiKey e = some v)) :=
      buildIndex_bucket_filter hb
    rw [hfil]
    exact List.mem_filter.mpr ⟨hej, by simp [hkj]⟩
  have hgmem : (b.map (fun e => { e with confidence := 1 })) ∈
      (pass1 (buildIndex npiKey (mkEntries records)) ⟨[], []⟩).groups :=
    pass1_forms_group _ ⟨[], []⟩ v b hb hv (List.ne_nil_of_mem hib)
      (fun p hp => buildIndex_nodup_idx (mkEntries_nodup records) hp)
      (fun p _ e _ => List.not_mem_nil e.idx)
      (buildIndex_pairwise _ _ (mkEntries_nodup records))
  have hfinal := groups_persist env records hgmem
  refine ⟨b.map (fun e => { e with confidence := 1 }), hfinal, ?_, ?_, ?_, ?_⟩
  · exact ⟨⟨i, ri, 1⟩, List.mem_map.mpr ⟨⟨i, ri, 1⟩, hib, rfl⟩, rfl, rfl, rfl⟩
  · exact ⟨⟨j, rj, 1⟩, List.mem_map.mpr ⟨⟨j, rj, 1⟩, hjb, rfl⟩, rfl, rfl, rfl⟩
  · intro e he
    obtain ⟨e0, he0, hee⟩ := List.mem_map.mp he
    refine ⟨by rw [← hee], ?_⟩
    have hkey := buildIndex_bucket_key hb he0
    have := npiKey_inv hkey
    rw [← hee]
    exact this
  · exact List.mem_map.mpr ⟨_, hfinal, rfl⟩

/-- Witness for C5's amended theorem: the two records sharing NPI
1112223334 from the counterexample input. -/
theorem C5_identifier_dominance_amended_witness :
    ∃ g ∈ dedupGroups env0 [c5recA, c5recB, c5org],
      (∃ e ∈ g, e.idx = 0 ∧ e.record = c5recA ∧ e.confidence = 1) ∧
      (∃ e ∈ g, e.idx = 1 ∧ e.record = c5recB ∧ e.confidence = 1) ∧
      (∀ e ∈ g, e.confidence = 1 ∧ e.record.npi_number = "1112223334") ∧
      stripLead (merge_records g) ∈ preFilterLeads env0 [c5recA, c5recB, c5org] :=
  C5_identifier_dominance_amended env0 [c5recA, c5recB, c5org] "1112223334" 0 1
    c5recA c5recB (by decide) rfl rfl rfl rfl

/-- The membership test of the entity filter, as a proposition: the lead's
address key is a truthy string present in the organization address set. -/
theorem leadKeyHit_iff (env : Env) (orgs : List String) (l : Lead) :
    leadKeyHit env orgs l = true ↔
      ∃ k, make_address_key env l.record = some k ∧ k ∈ orgs := by
  unfold leadKeyHit
  cases hm : make_address_key env l.record with
  | none =>
    simp
  | some k =>
    constructor
    · intro h
      exact ⟨k, rfl, List.elem_iff.mp h⟩
    · intro ⟨k2, hk2, hk2in⟩
      cases hk2
      exact List.elem_iff.mpr hk2in

/-- C6: the final filtering step of `deduplicate` retains exactly those
merged leads that are organizations (entity_type `NPI-2`) or whose
address-block key is not among the organization leads' address keys;
equivalently, it removes exactly the individual (non-`NPI-2`) leads whose
key is in that set.  Membership in the output is characterized over the
pre-filter merged leads. -/
theorem C6_entity_filter_exact (env : Env) (records : List Record) (lead : Lead) :
    lead ∈ (deduplicate env records).1 ↔
      lead ∈ preFilterLeads env records ∧
      (lead.record.entity_type = "NPI-2" ∨
        ¬ ∃ k, make_address_key env lead.record = some k ∧
          k ∈ orgAddresses env (preFilterLeads env records)) := by
  show lead ∈ (preFilterLeads env records).filter (fun l =>
      l.record.entity_type == "NPI-2" ||
      !(leadKeyHit env (orgAddresses env (preFilterLeads env records)) l)) ↔ _
  rw [List.mem_filter]
  apply and_congr_right
  intro _
  rw [Bool.or_eq_true, Bool.not_eq_true']
  constructor
  · intro h
    rcases h with h | h
    · exact Or.inl (by simpa using h)
    · refine Or.inr (fun hex => ?_)
      rw [(leadKeyHit_iff env _ lead).mpr hex] at h
      cases h
  · intro h
    rcases h with h | h
    · exact Or.inl (by simpa using h)
    · right
      cases hhit : leadKeyHit env (orgAddresses env (preFilterLeads env records)) lead
      · rfl
      · exact absurd ((leadKeyHit_iff env _ lead).mp hhit) h

/-- The code's fill-only-if-empty update coincides with the spec's. -/
theorem fillStr_eq_specFill (cur new : String) :
    fillStr cur new = specFill cur new := by
  unfold fillStr specFill
  by_cases hc : cur = "" <;> by_cases hn : new = "" <;> simp [hc, hn]

/-- The code's member step (fills, then overrides) computes the same
merged record as the spec's per-field description. -/
theorem mergeStep_eq_specStep (m r : Record) : mergeStep m r = specStep m r := by
  unfold mergeStep specStep
  by_cases ha : r.source = "adph" ∧ r.administrator ≠ "" <;>
    by_cases hf : r.source = "adph" ∧ r.facility_name ≠ "" <;>
      by_cases hc : r.source = "cms" ∧ r.bed_count ≠ "" <;>
        (simp [ha, hf, hc, fillStr_eq_specFill] <;> split_ifs <;> simp_all)

/-- The code's sort key is the spec's two-key comparator. -/
theorem entryKey_eq_specKey : entryKey = specKey :=
  funext (fun _ => rfl)

/-- C7: for every group with two or more members, `merge_records` computes
exactly the merge described by the claim (and §4.3 of the spec): base
record first in the stable sort by (organization first, then source
priority adph, npi, cms, others), fill-only-if-empty over the ten fillable
fields in sorted order, with the adph administrator/facility-name and cms
bed-count overrides taking precedence, and one sources entry per member. -/
theorem C7_group_merge_policy (group : List Entry) (h : 2 ≤ group.length) :
    merge_records group = mergeSpec group := by
  match group with
  | [] => simp at h
  | [g] => simp at h
  | e1 :: e2 :: rest =>
    have hstep : (fun (m : Record) (e : Entry) => mergeStep m e.record) =
        (fun (m : Record) (e : Entry) => specStep m e.record) :=
      funext fun m => funext fun e => mergeStep_eq_specStep m e.record
    show (let sg := sortByKey entryKey (e1 :: e2 :: rest)
          match sg with
          | [] => (⟨⟨"", "", "", "", "", "", "", "", "", "", "", "", "", "", "",
                    "", "", none, none⟩, []⟩ : Lead)
          | b :: _ => ⟨sg.foldl (fun m e => mergeStep m e.record) b.record,
                       sg.map entryOf⟩) = mergeSpec (e1 :: e2 :: rest)
    rw [mergeSpec, entryKey_eq_specKey, hstep]

/-- Witness for C7 at a two-member group (a cms and an adph record). -/
theorem C7_group_merge_policy_witness :
    2 ≤ ([c7entA, c7entB] : List Entry).length ∧
    merge_records [c7entA, c7entB] = mergeSpec [c7entA, c7entB] :=
  ⟨by decide, C7_group_merge_policy [c7entA, c7entB] (by decide)⟩
